import Mathlib

/-!
Verification of the grouped time-series regularization engine of
`src/utils/dataloader.py`: the date-axis regularizer
(`fill_missing_dates_in_df_of_every_country`) and the gap interpolator
(`interpolate_columns`), modelled over an abstract table of cell values.

The embedding follows the pandas semantics of the source:
* `pd.to_datetime(-, errors='coerce')` sends parseable values to dates and
  everything else to the NaT/null sentinel (`to_datetime`);
* `df.groupby(keys)` partitions rows by the tuple of key-column values and
  excludes rows whose key contains a null (pandas `dropna=True`); the
  iteration order over groups is deterministic (claims below do not depend
  on the cross-group order, so the sorted order used by pandas is replaced
  by a deterministic dedup order);
* `Series.min()/.max()` skip nulls; `pd.date_range(start, end, freq='D')`
  raises when an endpoint is NaT, which the embedding models by returning
  an `Except.error`, as it does for `pd.concat([])` and for `KeyError`s;
* `pd.merge(date_df, group, on=date_col, how='left')` keeps one output row
  per (candidate date, matching group row) pair, emits an all-null row for
  a candidate date with no match, and never matches a null date key;
* `Series.interpolate(method='linear', limit_direction='both')` fills an
  interior gap linearly between the nearest non-null neighbours, treating
  values as equally spaced, and propagates the nearest non-null value
  outward at both boundaries (`interp_linear_both`, the behaviour of
  `np.interp` with endpoint clipping); numbers are modelled as rationals;
* `groupby(keys)[c].transform(f)` writes the per-group results back in row
  order and writes null for rows excluded from every group.
-/

/-- Cell values of a table: strings, numbers, calendar dates (encoded as
day numbers, one unit per day), and the null/NaN/NaT sentinel. -/
inductive Value where
  | str (s : String)
  | num (q : ℚ)
  | date (d : ℤ)
  | null
deriving DecidableEq

/-- A table: a list of column names together with rows of cell values,
the shallow embedding of a pandas DataFrame. -/
structure Table where
  cols : List String
  rows : List (List Value)
deriving DecidableEq

/-- Decidable equality of call results, for concrete evaluation. -/
instance {α β : Type} [DecidableEq α] [DecidableEq β] : DecidableEq (Except α β) := fun a b =>
  match a, b with
  | .ok x, .ok y =>
    match decEq x y with
    | isTrue h => isTrue (h ▸ rfl)
    | isFalse h => isFalse (fun he => h (Except.ok.inj he))
  | .error x, .error y =>
    match decEq x y with
    | isTrue h => isTrue (h ▸ rfl)
    | isFalse h => isFalse (fun he => h (Except.error.inj he))
  | .ok _, .error _ => isFalse (fun he => Except.noConfusion he)
  | .error _, .ok _ => isFalse (fun he => Except.noConfusion he)

/-- Name-based cell access: the value of column `c` in `row`, null when the
column is absent or the row is too short. -/
def cell (cols : List String) (row : List Value) (c : String) : Value :=
  row.getD (cols.indexOf c) Value.null

/-- The tuple of group-key values of a row (the pandas groupby key). -/
def groupKeyR (cols : List String) (kcs : List String) (row : List Value) : List Value :=
  kcs.map (cell cols row)

/-- A table is rectangular: every row has exactly one cell per column. -/
def Table.Rect (t : Table) : Prop := ∀ r ∈ t.rows, r.length = t.cols.length

/-- The cell of column `c` in row number `p` of a table. -/
def cellAt (t : Table) (p : Nat) (c : String) : Value :=
  cell t.cols (t.rows.getD p []) c

/-- The `group_by` argument of the source functions: either a single column
name or a list of column names (composite key). -/
inductive GroupCols where
  | single (c : String)
  | multi (cs : List String)
deriving DecidableEq

/-- The list of key columns denoted by a `group_by` argument. -/
def GroupCols.keyCols : GroupCols → List String
  | .single c => [c]
  | .multi cs => cs

/-- A column holds only numbers and nulls (a numeric pandas dtype). -/
def NumericCol (t : Table) (c : String) : Prop :=
  ∀ r ∈ t.rows, cell t.cols r c = Value.null ∨ ∃ q, cell t.cols r c = Value.num q

/-- The numeric view of a cell: `some q` for a number, `none` otherwise
(nulls, and any non-numeric stray value, count as gaps). -/
def numView : Value → Option ℚ
  | .num q => some q
  | _ => none

/-- Write an interpolated optional number back into a cell. -/
def writeBack : Option ℚ → Value
  | some q => .num q
  | none => .null

/-- The first non-null entry of a series, with its position. -/
def firstSome : List (Option ℚ) → Option (Nat × ℚ)
  | [] => none
  | some v :: _ => some (0, v)
  | none :: l => (firstSome l).map (fun p => (p.1 + 1, p.2))

/-- The first non-null entry at position `≥ i`, with its position. -/
def firstSomeFrom (xs : List (Option ℚ)) (i : Nat) : Option (Nat × ℚ) :=
  (firstSome (xs.drop i)).map (fun p => (i + p.1, p.2))

/-- The last non-null entry at position `≤ i`, with its position. -/
def lastSomeBefore (xs : List (Option ℚ)) : Nat → Option (Nat × ℚ)
  | 0 =>
    match xs.getD 0 none with
    | some v => some (0, v)
    | none => none
  | i + 1 =>
    match xs.getD (i + 1) none with
    | some v => some (i + 1, v)
    | none => lastSomeBefore xs i

/-- One value of `Series.interpolate(method='linear', limit_direction='both')`:
non-null values are kept; an interior gap is filled linearly between the
nearest non-null neighbours with positions as the axis; a boundary gap takes
the nearest non-null value; a gap with no non-null neighbour at all stays
null. This is `np.interp` with endpoint clipping, which is what pandas
computes for equally spaced positions. -/
def interpAt (xs : List (Option ℚ)) (i : Nat) : Option ℚ :=
  match xs.getD i none with
  | some v => some v
  | none =>
    match lastSomeBefore xs i, firstSomeFrom xs i with
    | some (j, a), some (k, c) => some (a + (c - a) * (((i : ℚ) - (j : ℚ)) / ((k : ℚ) - (j : ℚ))))
    | some (_, a), none => some a
    | none, some (_, c) => some c
    | none, none => none

/-- The interpolated series. -/
def interp_linear_both (xs : List (Option ℚ)) : List (Option ℚ) :=
  (List.range xs.length).map (interpAt xs)

/-- The row positions of the group with key `k` (rows whose key tuple is
`k`), in row order. -/
def groupPositions (cols kcs : List String) (rows : List (List Value)) (k : List Value) : List Nat :=
  (List.range rows.length).filter (fun q => decide (groupKeyR cols kcs (rows.getD q []) = k))

/-- The series of column `ci` over the group with key `k`. -/
def groupSeries (cols kcs : List String) (ci : Nat) (rows : List (List Value)) (k : List Value) :
    List (Option ℚ) :=
  (groupPositions cols kcs rows k).map (fun q => numView ((rows.getD q []).getD ci Value.null))

/-- The value `groupby(kcs)[col].transform(interpolate)` assigns to row `p`
of column `ci`: null when the row's key contains a null (the row belongs to
no group), otherwise the interpolated group series at the row's in-group
position. -/
def newCell (cols kcs : List String) (ci : Nat) (rows : List (List Value)) (p : Nat) : Value :=
  let k := groupKeyR cols kcs (rows.getD p [])
  if Value.null ∈ k then Value.null
  else
    writeBack ((interp_linear_both (groupSeries cols kcs ci rows k)).getD
      ((groupPositions cols kcs rows k).indexOf p) none)

/-- One iteration of the `interpolate_columns` loop body on a present
column: `df[col] = df.groupby(group_by)[col].transform(...)`. -/
def applyCol (t : Table) (kcs : List String) (c : String) : Table :=
  { cols := t.cols,
    rows := (List.range t.rows.length).map
      (fun p => (t.rows.getD p []).set (t.cols.indexOf c)
        (newCell t.cols kcs (t.cols.indexOf c) t.rows p)) }

/-- The `for col in cols_to_interpolate` loop: a column absent from the
table is skipped silently; a present column is transformed, after pandas
raises a `KeyError` if the group keys are absent (or empty). -/
def interpolate_go (kcs : List String) : Table → List String → Except String Table
  | t, [] => .ok t
  | t, c :: cs =>
    if c ∈ t.cols then
      if kcs ≠ [] ∧ ∀ x ∈ kcs, x ∈ t.cols then
        interpolate_go kcs (applyCol t kcs c) cs
      else .error "KeyError: group column"
    else interpolate_go kcs t cs

/-- The gap interpolator `Dataloader.interpolate_columns`. -/
def interpolate_columns (t : Table) (cols_to_interpolate : List String)
    (group_by : GroupCols) : Except String Table :=
  interpolate_go group_by.keyCols t cols_to_interpolate

/-- The coercion `pd.to_datetime(-, errors='coerce')` of one cell: a date
parses to itself, anything else becomes the NaT/null sentinel. -/
def to_datetime : Value → Value
  | .date d => .date d
  | _ => .null

/-- The date carried by a cell, if any (`NaT`-skipping view). -/
def dateVal : Value → Option ℤ
  | .date d => some d
  | _ => none

/-- Coerce the date column (at index `dIdx`) of one row. -/
def coerceRow (dIdx : Nat) (r : List Value) : List Value :=
  r.set dIdx (to_datetime (r.getD dIdx Value.null))

/-- The rows of the input after date coercion that belong to some group:
rows whose group key contains no null (pandas groupby drops the rest). -/
def fillRetained (t : Table) (dateCol : String) (kcs : List String) : List (List Value) :=
  (t.rows.map (coerceRow (t.cols.indexOf dateCol))).filter
    (fun r => decide (Value.null ∉ groupKeyR t.cols kcs r))

/-- The group keys of the input, each once, in a deterministic order. -/
def fillKeys (t : Table) (dateCol : String) (kcs : List String) : List (List Value) :=
  ((fillRetained t dateCol kcs).map (groupKeyR t.cols kcs)).dedup

/-- The rows of the group with key `k`, in row order. -/
def groupOf (cols kcs : List String) (retained : List (List Value)) (k : List Value) :
    List (List Value) :=
  retained.filter (fun r => decide (groupKeyR cols kcs r = k))

/-- The parseable (non-NaT) dates of a group's date column, in row order. -/
def validDatesOf (dIdx : Nat) (grp : List (List Value)) : List ℤ :=
  grp.filterMap (fun r => dateVal (r.getD dIdx Value.null))

/-- `Series.min()` with null skipping: `none` on an all-null column. -/
def listMin : List ℤ → Option ℤ
  | [] => none
  | x :: xs => some (xs.foldl min x)

/-- `Series.max()` with null skipping: `none` on an all-null column. -/
def listMax : List ℤ → Option ℤ
  | [] => none
  | x :: xs => some (xs.foldl max x)

/-- `pd.date_range(lo, hi, freq='D')`: every day from `lo` to `hi`. -/
def dateRange (lo hi : ℤ) : List ℤ :=
  (List.range (hi + 1 - lo).toNat).map (fun n : ℕ => lo + (n : ℤ))

/-- The group rows whose (coerced) date equals `d`; a null date never
matches (NaN joins to nothing). -/
def matchRows (dIdx : Nat) (grp : List (List Value)) (d : ℤ) : List (List Value) :=
  grp.filter (fun r => decide (r.getD dIdx Value.null = Value.date d))

/-- The merged rows for one candidate date `d`: one row per matching group
row, reordered to put the date first (merge output column order), or a
single all-null placeholder row when no group row matches. -/
def mergeOne (ncols dIdx : Nat) (grp : List (List Value)) (d : ℤ) : List (List Value) :=
  if (matchRows dIdx grp d).isEmpty then [Value.date d :: List.replicate (ncols - 1) Value.null]
  else (matchRows dIdx grp d).map (fun r => Value.date d :: r.eraseIdx dIdx)

/-- `pd.merge(date_df, group, on=date_col, how='left')`: the concatenation
of the merged rows over the full candidate date range. -/
def mergeGroup (ncols dIdx : Nat) (grp : List (List Value)) (lo hi : ℤ) : List (List Value) :=
  (dateRange lo hi).flatMap (mergeOne ncols dIdx grp)

/-- The loop `for i, col in enumerate(group_by): merged[col] = name[i]`:
write the group's key values into the key columns of a merged row. -/
def setKeyVals (mCols : List String) : List String → List Value → List Value → List Value
  | [], _, row => row
  | _ :: _, [], row => row
  | c :: cs, v :: vs, row => setKeyVals mCols cs vs (row.set (mCols.indexOf c) v)

/-- The body of the per-group loop of the regularizer: compute the group's
observed date span (an error when the group has no parseable date, as
`pd.date_range` raises on a NaT endpoint), merge against the candidate
dates, and stamp the group key into every merged row. -/
def processGroup (cols : List String) (dIdx : Nat) (kcs mCols : List String)
    (retained : List (List Value)) (k : List Value) : Except String (List (List Value)) :=
  match listMin (validDatesOf dIdx (groupOf cols kcs retained k)),
      listMax (validDatesOf dIdx (groupOf cols kcs retained k)) with
  | some lo, some hi =>
    .ok ((mergeGroup cols.length dIdx (groupOf cols kcs retained k) lo hi).map
      (setKeyVals mCols kcs k))
  | _, _ => .error "ValueError: Neither start nor end can be NaT"

/-- Process every group in order and concatenate the resulting blocks
(`filled_dfs` and the final `pd.concat`). -/
def concatGroups (cols : List String) (dIdx : Nat) (kcs mCols : List String)
    (retained : List (List Value)) : List (List Value) → Except String (List (List Value))
  | [] => .ok []
  | k :: ks =>
    match processGroup cols dIdx kcs mCols retained k with
    | .error e => .error e
    | .ok b =>
      match concatGroups cols dIdx kcs mCols retained ks with
      | .error e => .error e
      | .ok bs => .ok (b ++ bs)

/-- The date-axis regularizer
`Dataloader.fill_missing_dates_in_df_of_every_country`. -/
def fill_missing_dates_in_df_of_every_country (t : Table) (date_col : String)
    (group_by : GroupCols) : Except String Table :=
  if date_col ∈ t.cols then
    if group_by.keyCols ≠ [] ∧ ∀ c ∈ group_by.keyCols, c ∈ t.cols then
      if fillKeys t date_col group_by.keyCols = [] then
        .error "ValueError: No objects to concatenate"
      else
        match concatGroups t.cols (t.cols.indexOf date_col) group_by.keyCols
            (date_col :: t.cols.eraseIdx (t.cols.indexOf date_col))
            (fillRetained t date_col group_by.keyCols)
            (fillKeys t date_col group_by.keyCols) with
        | .error e => .error e
        | .ok out => .ok ⟨date_col :: t.cols.eraseIdx (t.cols.indexOf date_col), out⟩
    else .error "KeyError: group column"
  else .error "KeyError: date column"

/-- A column is a fixed point of one interpolation pass: every cell already
holds the value the transform would assign. -/
def FixedCol (kcs : List String) (t : Table) (c : String) : Prop :=
  ∀ p, p < t.rows.length → cellAt t p c = newCell t.cols kcs (t.cols.indexOf c) t.rows p

/-- The rows of the output that belong to the group with key `k`. -/
def outGroup (t' : Table) (kcs : List String) (k : List Value) : List (List Value) :=
  t'.rows.filter (fun r => decide (groupKeyR t'.cols kcs r = k))

/-- The date-column cells of the output rows of the group with key `k`. -/
def outGroupDates (t' : Table) (date_col : String) (kcs : List String) (k : List Value) :
    List Value :=
  (outGroup t' kcs k).map (fun r => cell t'.cols r date_col)

/-- Boolean check that a cell is a number or null (decidable view of
`NumericCol`). -/
def isNumOrNull : Value → Bool
  | .num _ => true
  | .null => true
  | _ => false

/-! ### Generic list lemmas used throughout the development -/

theorem getD_set_self {α : Type} (l : List α) (i : Nat) (v d : α) (h : i < l.length) :
    (l.set i v).getD i d = v := by
  induction l generalizing i with
  | nil => simp at h
  | cons x xs ih =>
    cases i with
    | zero => simp [List.set]
    | succ n => simpa [List.set] using ih n (by simpa using h)

theorem getD_set_ne {α : Type} (l : List α) (i j : Nat) (v d : α) (h : i ≠ j) :
    (l.set i v).getD j d = l.getD j d := by
  induction l generalizing i j with
  | nil => simp [List.set]
  | cons x xs ih =>
    cases i with
    | zero =>
      cases j with
      | zero => exact absurd rfl h
      | succ m => simp [List.set]
    | succ n =>
      cases j with
      | zero => simp [List.set]
      | succ m =>
        simpa [List.set] using ih n m (by omega)

theorem set_getD_self {α : Type} (l : List α) (i : Nat) (v d : α) (h : l.getD i d = v) :
    l.set i v = l := by
  induction l generalizing i with
  | nil => rfl
  | cons x xs ih =>
    cases i with
    | zero => simp_all [List.getD]
    | succ n =>
      simp only [List.set]
      rw [ih n (by simpa [List.getD] using h)]

theorem eraseIdx_set_same {α : Type} (l : List α) (i : Nat) (v : α) :
    (l.set i v).eraseIdx i = l.eraseIdx i := by
  induction l generalizing i with
  | nil => rfl
  | cons x xs ih =>
    cases i with
    | zero => rfl
    | succ n => simpa [List.set, List.eraseIdx] using ih n

theorem length_set_eq {α : Type} (l : List α) (i : Nat) (v : α) :
    (l.set i v).length = l.length := List.length_set l i v

theorem map_getD_range {α : Type} (l : List α) (d : α) :
    (List.range l.length).map (fun p => l.getD p d) = l := by
  apply List.ext_getElem
  · simp
  · intro i h1 h2
    simp only [List.getElem_map, List.getElem_range]
    exact List.getD_eq_getElem l d h2

theorem indexOf_ne_indexOf {α : Type} [DecidableEq α] {l : List α} {a b : α}
    (ha : a ∈ l) (hne : b ≠ a) : l.indexOf b ≠ l.indexOf a := by
  by_cases hb : b ∈ l
  · intro h
    have e1 : l[l.indexOf a]? = some a := by
      rw [List.getElem?_eq_getElem (List.indexOf_lt_length.2 ha)]
      exact congrArg some (List.getElem_indexOf (List.indexOf_lt_length.2 ha))
    have e2 : l[l.indexOf b]? = some b := by
      rw [List.getElem?_eq_getElem (List.indexOf_lt_length.2 hb)]
      exact congrArg some (List.getElem_indexOf (List.indexOf_lt_length.2 hb))
    rw [h, e1] at e2
    exact hne (Option.some.inj e2).symm
  · intro h
    rw [List.indexOf_of_not_mem hb] at h
    exact absurd (h ▸ List.indexOf_lt_length.2 ha) (lt_irrefl _)

theorem getD_drop' {α : Type} (l : List α) (i j : Nat) (d : α) :
    (l.drop i).getD j d = l.getD (i + j) d := by
  induction l generalizing i with
  | nil => simp [List.getD]
  | cons x xs ih =>
    cases i with
    | zero => simp
    | succ n =>
      rw [List.drop_succ_cons, ih n, Nat.succ_add, List.getD_cons_succ]

theorem getD_some_lt_length {α : Type} {l : List (Option α)} {n : Nat} {v : α}
    (h : l.getD n none = some v) : n < l.length := by
  by_contra hn
  rw [List.getD_eq_default _ _ (Nat.le_of_not_lt hn)] at h
  exact Option.noConfusion h

/-! ### Properties of the interpolation kernel -/

theorem interp_length (xs : List (Option ℚ)) : (interp_linear_both xs).length = xs.length := by
  simp [interp_linear_both]

theorem interp_getD (xs : List (Option ℚ)) {i : Nat} (h : i < xs.length) :
    (interp_linear_both xs).getD i none = interpAt xs i := by
  rw [interp_linear_both, List.getD_eq_getElem _ _ (by simpa using h)]
  simp

theorem interpAt_of_some {xs : List (Option ℚ)} {i : Nat} {v : ℚ}
    (h : xs.getD i none = some v) : interpAt xs i = some v := by
  simp only [interpAt]
  rw [h]

theorem interp_preserve {xs : List (Option ℚ)} {i : Nat} {v : ℚ}
    (h : xs.getD i none = some v) : (interp_linear_both xs).getD i none = some v := by
  rw [interp_getD xs (getD_some_lt_length h)]
  exact interpAt_of_some h

theorem firstSome_eq_some_of {l : List (Option ℚ)} {m : Nat} {v : ℚ}
    (hnone : ∀ j < m, l.getD j none = none) (hm : l.getD m none = some v) :
    firstSome l = some (m, v) := by
  induction l generalizing m with
  | nil => exact absurd (getD_some_lt_length hm) (by simp)
  | cons x xs ih =>
    cases m with
    | zero =>
      simp only [List.getD_cons_zero] at hm
      subst hm
      rfl
    | succ n =>
      have hx : x = none := by simpa using hnone 0 (Nat.succ_pos n)
      subst hx
      have : firstSome xs = some (n, v) :=
        ih (fun j hj => by simpa using hnone (j + 1) (Nat.succ_lt_succ hj))
          (by simpa using hm)
      simp [firstSome, this]

theorem firstSome_eq_none_of {l : List (Option ℚ)}
    (hnone : ∀ j < l.length, l.getD j none = none) : firstSome l = none := by
  induction l with
  | nil => rfl
  | cons x xs ih =>
    have hx : x = none := by simpa using hnone 0 (by simp)
    subst hx
    have : firstSome xs = none :=
      ih (fun j hj => by simpa using hnone (j + 1) (by simpa using Nat.succ_lt_succ hj))
    simp [firstSome, this]

theorem firstSomeFrom_eq_some_of {xs : List (Option ℚ)} {i m : Nat} {v : ℚ}
    (him : i ≤ m) (hnone : ∀ j, i ≤ j → j < m → xs.getD j none = none)
    (hm : xs.getD m none = some v) : firstSomeFrom xs i = some (m, v) := by
  have h1 : firstSome (xs.drop i) = some (m - i, v) := by
    apply firstSome_eq_some_of
    · intro j hj
      rw [getD_drop']
      exact hnone (i + j) (Nat.le_add_right i j) (by omega)
    · rw [getD_drop']
      rwa [show i + (m - i) = m by omega]
  simp [firstSomeFrom, h1]
  omega

theorem firstSomeFrom_eq_none_of {xs : List (Option ℚ)} {i : Nat}
    (hnone : ∀ j, i ≤ j → j < xs.length → xs.getD j none = none) :
    firstSomeFrom xs i = none := by
  have h1 : firstSome (xs.drop i) = none := by
    apply firstSome_eq_none_of
    intro j hj
    rw [getD_drop']
    exact hnone (i + j) (Nat.le_add_right i j) (by simp at hj; omega)
  simp [firstSomeFrom, h1]

theorem lastSomeBefore_eq_some_of {xs : List (Option ℚ)} {i m : Nat} {v : ℚ}
    (hmi : m ≤ i) (hnone : ∀ j, m < j → j ≤ i → xs.getD j none = none)
    (hm : xs.getD m none = some v) : lastSomeBefore xs i = some (m, v) := by
  induction i with
  | zero =>
    have : m = 0 := Nat.le_zero.mp hmi
    subst this
    simp only [lastSomeBefore]
    rw [hm]
  | succ n ih =>
    by_cases hmn : m = n + 1
    · subst hmn
      simp only [lastSomeBefore]
      rw [hm]
    · have hm' : m ≤ n := by omega
      have hnone' : xs.getD (n + 1) none = none := hnone (n + 1) (by omega) (le_refl _)
      have hrec := ih hm' (fun j h1 h2 => hnone j h1 (Nat.le_succ_of_le h2))
      simp only [lastSomeBefore]
      rw [hnone', hrec]

theorem lastSomeBefore_eq_none_of {xs : List (Option ℚ)} {i : Nat}
    (hnone : ∀ j ≤ i, xs.getD j none = none) : lastSomeBefore xs i = none := by
  induction i with
  | zero =>
    simp only [lastSomeBefore]
    rw [hnone 0 (le_refl _)]
  | succ n ih =>
    have h1 : xs.getD (n + 1) none = none := hnone (n + 1) (le_refl _)
    have h2 := ih (fun j hj => hnone j (Nat.le_succ_of_le hj))
    simp only [lastSomeBefore]
    rw [h1, h2]

theorem lastSomeBefore_isSome {xs : List (Option ℚ)} {i m : Nat} {v : ℚ}
    (hmi : m ≤ i) (hm : xs.getD m none = some v) : (lastSomeBefore xs i).isSome := by
  induction i with
  | zero =>
    have : m = 0 := Nat.le_zero.mp hmi
    subst this
    simp only [lastSomeBefore]
    rw [hm]
    rfl
  | succ n ih =>
    rcases h : xs.getD (n + 1) none with _ | w
    · have hmn : m ≤ n := by
        rcases Nat.lt_or_ge m (n + 1) with h1 | h1
        · omega
        · exfalso
          have : m = n + 1 := by omega
          rw [this, h] at hm
          exact Option.noConfusion hm
      simp only [lastSomeBefore]
      rw [h]
      exact ih hmn
    · simp only [lastSomeBefore]
      rw [h]
      rfl

theorem firstSome_isSome {l : List (Option ℚ)} {m : Nat} {v : ℚ}
    (hm : l.getD m none = some v) : (firstSome l).isSome := by
  induction l generalizing m with
  | nil => exact absurd (getD_some_lt_length hm) (by simp)
  | cons x xs ih =>
    rcases x with _ | w
    · cases m with
      | zero => exact absurd hm (by simp)
      | succ n =>
        have := ih (m := n) (by simpa using hm)
        simpa [firstSome] using this
    · rfl

theorem firstSomeFrom_isSome {xs : List (Option ℚ)} {i m : Nat} {v : ℚ}
    (him : i ≤ m) (hm : xs.getD m none = some v) : (firstSomeFrom xs i).isSome := by
  have h1 : (xs.drop i).getD (m - i) none = some v := by
    rw [getD_drop', show i + (m - i) = m by omega]
    exact hm
  have h2 := firstSome_isSome h1
  rcases h : firstSome (xs.drop i) with _ | p
  · rw [h] at h2
    simp at h2
  · simp [firstSomeFrom, h]

theorem interpAt_isSome_of_exists {xs : List (Option ℚ)} {m : Nat} {v : ℚ}
    (hm : xs.getD m none = some v) (i : Nat) : (interpAt xs i).isSome := by
  rcases h : xs.getD i none with _ | w
  · simp only [interpAt]
    rw [h]
    rcases Nat.le_total m i with hmi | him
    · have hlast := lastSomeBefore_isSome hmi hm
      rcases hl : lastSomeBefore xs i with _ | ⟨j, a⟩
      · rw [hl] at hlast
        simp at hlast
      · rcases hf : firstSomeFrom xs i with _ | ⟨k, c⟩ <;> rfl
    · have hfirst := firstSomeFrom_isSome him hm
      rcases hf : firstSomeFrom xs i with _ | ⟨k, c⟩
      · rw [hf] at hfirst
        simp at hfirst
      · rcases hl : lastSomeBefore xs i with _ | ⟨j, a⟩ <;> rfl
  · rw [interpAt_of_some h]
    rfl

theorem interp_isSome {xs : List (Option ℚ)} {m : Nat} {v : ℚ}
    (hm : xs.getD m none = some v) {i : Nat} (hi : i < xs.length) :
    ((interp_linear_both xs).getD i none).isSome := by
  rw [interp_getD xs hi]
  exact interpAt_isSome_of_exists hm i

theorem interp_of_all_some {xs : List (Option ℚ)}
    (h : ∀ j < xs.length, (xs.getD j none).isSome) : interp_linear_both xs = xs := by
  apply List.ext_getElem (interp_length xs)
  intro i h1 h2
  rcases Option.isSome_iff_exists.mp (h i h2) with ⟨v, hv⟩
  have : (interp_linear_both xs).getD i none = some v := interp_preserve hv
  rw [List.getD_eq_getElem _ _ h1] at this
  rw [this, ← hv, List.getD_eq_getElem _ _ h2]

theorem interp_of_all_none {xs : List (Option ℚ)}
    (h : ∀ j < xs.length, xs.getD j none = none) : interp_linear_both xs = xs := by
  apply List.ext_getElem (interp_length xs)
  intro i h1 h2
  have hi : xs.getD i none = none := h i h2
  have hlast : lastSomeBefore xs i = none :=
    lastSomeBefore_eq_none_of (fun j hj => by
      rcases Nat.lt_or_ge j xs.length with hl | hl
      · exact h j hl
      · exact List.getD_eq_default _ _ hl)
  have hfirst : firstSomeFrom xs i = none :=
    firstSomeFrom_eq_none_of (fun j _ hjl => h j hjl)
  have : interpAt xs i = none := by
    simp only [interpAt]
    rw [hi, hlast, hfirst]
  have g1 : (interp_linear_both xs)[i] = interpAt xs i := by
    rw [← List.getD_eq_getElem _ none h1, interp_getD xs h2]
  rw [g1, this, ← List.getD_eq_getElem xs none h2]
  exact (h i h2).symm

theorem interp_idem (xs : List (Option ℚ)) :
    interp_linear_both (interp_linear_both xs) = interp_linear_both xs := by
  by_cases h : ∃ j, j < xs.length ∧ (xs.getD j none).isSome
  · rcases h with ⟨m, hm, hsome⟩
    rcases Option.isSome_iff_exists.mp hsome with ⟨v, hv⟩
    apply interp_of_all_some
    intro j hj
    rw [interp_length] at hj
    exact interp_isSome hv hj
  · push_neg at h
    have hall : ∀ j < xs.length, xs.getD j none = none := by
      intro j hj
      have := h j hj
      rcases hx : xs.getD j none with _ | w
      · rfl
      · rw [hx] at this
        exact absurd rfl this
    rw [interp_of_all_none hall, interp_of_all_none hall]

theorem interp_middle {xs : List (Option ℚ)} {i : Nat} {a c : ℚ}
    (ha : xs.getD i none = some a) (hmid : xs.getD (i + 1) none = none)
    (hc : xs.getD (i + 2) none = some c) :
    (interp_linear_both xs).getD (i + 1) none = some ((a + c) / 2) := by
  have hlen : i + 2 < xs.length := getD_some_lt_length hc
  rw [interp_getD xs (by omega)]
  have hlast : lastSomeBefore xs (i + 1) = some (i, a) :=
    lastSomeBefore_eq_some_of (by omega)
      (fun j h1 h2 => by
        have : j = i + 1 := by omega
        rw [this]
        exact hmid) ha
  have hfirst : firstSomeFrom xs (i + 1) = some (i + 2, c) :=
    firstSomeFrom_eq_some_of (by omega)
      (fun j h1 h2 => by
        have : j = i + 1 := by omega
        rw [this]
        exact hmid) hc
  simp only [interpAt]
  rw [hmid, hlast, hfirst]
  push_cast
  have h2 : ((i : ℚ) + 2) - i ≠ 0 := by ring_nf; norm_num
  field_simp
  ring

theorem interp_leading {xs : List (Option ℚ)} {m : Nat} {v : ℚ}
    (hm : xs.getD m none = some v) (hnone : ∀ j < m, xs.getD j none = none)
    {j : Nat} (hj : j < m) : (interp_linear_both xs).getD j none = some v := by
  have hlen : m < xs.length := getD_some_lt_length hm
  rw [interp_getD xs (by omega)]
  have hlast : lastSomeBefore xs j = none :=
    lastSomeBefore_eq_none_of (fun j' hj' => hnone j' (by omega))
  have hfirst : firstSomeFrom xs j = some (m, v) :=
    firstSomeFrom_eq_some_of (by omega) (fun j' _ hj' => hnone j' hj') hm
  simp only [interpAt]
  rw [hnone j hj, hlast, hfirst]

theorem interp_trailing {xs : List (Option ℚ)} {m : Nat} {v : ℚ}
    (hm : xs.getD m none = some v) (hnone : ∀ j, m < j → j < xs.length → xs.getD j none = none)
    {j : Nat} (hj : m < j) (hjl : j < xs.length) :
    (interp_linear_both xs).getD j none = some v := by
  rw [interp_getD xs hjl]
  have hlast : lastSomeBefore xs j = some (m, v) :=
    lastSomeBefore_eq_some_of (by omega) (fun j' h1 h2 => hnone j' h1 (by omega)) hm
  have hfirst : firstSomeFrom xs j = none :=
    firstSomeFrom_eq_none_of (fun j' hj1 hj2 => hnone j' (by omega) hj2)
  simp only [interpAt]
  rw [hnone j hj hjl, hlast, hfirst]

/-! ### Frame and stability lemmas for one `interpolate_columns` loop step -/

theorem getD_map_range {α : Type} {n p : Nat} (f : Nat → α) (d : α) (h : p < n) :
    ((List.range n).map f).getD p d = f p := by
  rw [List.getD_eq_getElem _ _ (by simpa using h)]
  simp

theorem getD_mem_of_lt {α : Type} {l : List α} {p : Nat} (d : α) (h : p < l.length) :
    l.getD p d ∈ l := by
  rw [List.getD_eq_getElem _ _ h]
  exact List.getElem_mem h

theorem applyCol_cols (t : Table) (kcs : List String) (c : String) :
    (applyCol t kcs c).cols = t.cols := rfl

theorem applyCol_rows_length (t : Table) (kcs : List String) (c : String) :
    (applyCol t kcs c).rows.length = t.rows.length := by
  simp [applyCol]

theorem applyCol_row {t : Table} {kcs : List String} {c : String} {p : Nat}
    (h : p < t.rows.length) :
    (applyCol t kcs c).rows.getD p [] =
      (t.rows.getD p []).set (t.cols.indexOf c)
        (newCell t.cols kcs (t.cols.indexOf c) t.rows p) := by
  simp only [applyCol]
  exact getD_map_range _ _ h

theorem applyCol_row_out {t : Table} {kcs : List String} {c : String} {p : Nat}
    (h : t.rows.length ≤ p) :
    (applyCol t kcs c).rows.getD p [] = [] ∧ t.rows.getD p [] = [] := by
  constructor
  · exact List.getD_eq_default _ _ (by simpa [applyCol] using h)
  · exact List.getD_eq_default _ _ h

theorem applyCol_rect {t : Table} {kcs : List String} {c : String} (h : t.Rect) :
    (applyCol t kcs c).Rect := by
  intro r hr
  simp only [applyCol, List.mem_map, List.mem_range] at hr
  rcases hr with ⟨p, hp, rfl⟩
  rw [length_set_eq]
  exact h _ (getD_mem_of_lt [] hp)

theorem applyCol_cell_ne {t : Table} {kcs : List String} {c c' : String}
    (hc : c ∈ t.cols) (hne : c' ≠ c) (p : Nat) :
    cellAt (applyCol t kcs c) p c' = cellAt t p c' := by
  rcases Nat.lt_or_ge p t.rows.length with h | h
  · unfold cellAt cell
    rw [applyCol_cols, applyCol_row h]
    exact getD_set_ne _ _ _ _ _ (indexOf_ne_indexOf hc hne).symm
  · unfold cellAt cell
    rw [applyCol_cols]
    have h1 : (applyCol t kcs c).rows.getD p [] = [] := (applyCol_row_out h).1
    have h2 : t.rows.getD p [] = [] := List.getD_eq_default _ _ h
    rw [h1, h2]

theorem applyCol_cell_eq {t : Table} {kcs : List String} {c : String}
    (hrect : t.Rect) (hc : c ∈ t.cols) {p : Nat} (h : p < t.rows.length) :
    cellAt (applyCol t kcs c) p c = newCell t.cols kcs (t.cols.indexOf c) t.rows p := by
  unfold cellAt cell
  rw [applyCol_cols, applyCol_row h]
  apply getD_set_self
  rw [hrect _ (getD_mem_of_lt [] h)]
  exact List.indexOf_lt_length.2 hc

theorem mem_groupPositions {cols kcs : List String} {rows : List (List Value)} {k : List Value}
    {q : Nat} :
    q ∈ groupPositions cols kcs rows k ↔
      q < rows.length ∧ groupKeyR cols kcs (rows.getD q []) = k := by
  simp [groupPositions, List.mem_filter]

theorem newCell_of_invalid {cols kcs : List String} {ci : Nat} {rows : List (List Value)}
    {p : Nat} (h : Value.null ∈ groupKeyR cols kcs (rows.getD p [])) :
    newCell cols kcs ci rows p = Value.null := by
  simp only [newCell]
  rw [if_pos h]

theorem newCell_of_valid {cols kcs : List String} {ci : Nat} {rows : List (List Value)}
    {p : Nat} (h : Value.null ∉ groupKeyR cols kcs (rows.getD p [])) :
    newCell cols kcs ci rows p =
      writeBack ((interp_linear_both
          (groupSeries cols kcs ci rows (groupKeyR cols kcs (rows.getD p [])))).getD
        ((groupPositions cols kcs rows (groupKeyR cols kcs (rows.getD p []))).indexOf p) none) := by
  simp only [newCell]
  rw [if_neg h]

theorem series_getD_of_all_eq {xs : List (Option ℚ)} {a : ℚ}
    (h : ∀ x ∈ xs, x = some a) {j : Nat} (hj : j < xs.length) : xs.getD j none = some a := by
  rw [List.getD_eq_getElem _ _ hj]
  exact h _ (List.getElem_mem hj)

theorem newCell_keycol {t : Table} {kcs : List String} {c : String} {p : Nat}
    (hnum : NumericCol t c) (hckc : c ∈ kcs) (hp : p < t.rows.length)
    (hvalid : Value.null ∉ groupKeyR t.cols kcs (t.rows.getD p [])) :
    newCell t.cols kcs (t.cols.indexOf c) t.rows p = cell t.cols (t.rows.getD p []) c := by
  have hrowmem : t.rows.getD p [] ∈ t.rows := getD_mem_of_lt [] hp
  have hcellmem : cell t.cols (t.rows.getD p []) c ∈ groupKeyR t.cols kcs (t.rows.getD p []) :=
    List.mem_map.mpr ⟨c, hckc, rfl⟩
  have hne : cell t.cols (t.rows.getD p []) c ≠ Value.null := by
    intro h
    exact hvalid (h ▸ hcellmem)
  rcases hnum _ hrowmem with h | ⟨a, ha⟩
  · exact absurd h hne
  · rw [newCell_of_valid hvalid]
    have hallsome : ∀ x ∈ groupSeries t.cols kcs (t.cols.indexOf c) t.rows
        (groupKeyR t.cols kcs (t.rows.getD p [])), x = some a := by
      intro x hx
      simp only [groupSeries, List.mem_map] at hx
      rcases hx with ⟨q, hq, rfl⟩
      rcases mem_groupPositions.mp hq with ⟨hql, hqk⟩
      have := List.map_inj_left.mp hqk c hckc
      have hq_cell : cell t.cols (t.rows.getD q []) c = Value.num a := this.trans ha
      show numView ((t.rows.getD q []).getD (t.cols.indexOf c) Value.null) = some a
      rw [show (t.rows.getD q []).getD (t.cols.indexOf c) Value.null =
          cell t.cols (t.rows.getD q []) c from rfl, hq_cell]
      rfl
    have hlen : (groupSeries t.cols kcs (t.cols.indexOf c) t.rows
        (groupKeyR t.cols kcs (t.rows.getD p []))).length =
        (groupPositions t.cols kcs t.rows
          (groupKeyR t.cols kcs (t.rows.getD p []))).length := by
      simp [groupSeries]
    rw [interp_of_all_some (fun j hj => by rw [series_getD_of_all_eq hallsome hj]; rfl)]
    have hpmem : p ∈ groupPositions t.cols kcs t.rows
        (groupKeyR t.cols kcs (t.rows.getD p [])) :=
      mem_groupPositions.mpr ⟨hp, rfl⟩
    have hidx : (groupPositions t.cols kcs t.rows
        (groupKeyR t.cols kcs (t.rows.getD p []))).indexOf p <
        (groupSeries t.cols kcs (t.cols.indexOf c) t.rows
          (groupKeyR t.cols kcs (t.rows.getD p []))).length := by
      rw [hlen]
      exact List.indexOf_lt_length.2 hpmem
    rw [series_getD_of_all_eq hallsome hidx, ha]
    rfl

theorem applyCol_key_invalid {t : Table} {kcs : List String} {c : String}
    (hc : c ∈ t.cols) (p : Nat)
    (h : Value.null ∈ groupKeyR t.cols kcs (t.rows.getD p [])) :
    Value.null ∈ groupKeyR t.cols kcs ((applyCol t kcs c).rows.getD p []) := by
  rcases Nat.lt_or_ge p t.rows.length with hp | hp
  · rcases List.mem_map.mp h with ⟨c', hc', hcell⟩
    apply List.mem_map.mpr
    refine ⟨c', hc', ?_⟩
    rw [applyCol_row hp]
    by_cases hik : t.cols.indexOf c' = t.cols.indexOf c
    · show (_ : List Value).getD (t.cols.indexOf c') Value.null = Value.null
      rw [hik]
      rcases Nat.lt_or_ge (t.cols.indexOf c) (t.rows.getD p []).length with hlt | hge
      · rw [getD_set_self _ _ _ _ hlt, newCell_of_invalid h]
      · rw [List.set_eq_of_length_le hge]
        rw [← hik]
        exact hcell
    · show (_ : List Value).getD (t.cols.indexOf c') Value.null = Value.null
      rw [getD_set_ne _ _ _ _ _ (Ne.symm hik)]
      exact hcell
  · have h1 : (applyCol t kcs c).rows.getD p [] = [] := (applyCol_row_out hp).1
    have h2 : t.rows.getD p [] = [] := List.getD_eq_default _ _ hp
    rw [h1, ← h2]
    exact h

theorem applyCol_key_valid {t : Table} {kcs : List String} {c : String}
    (hrect : t.Rect) (hc : c ∈ t.cols) (hnum : c ∈ kcs → NumericCol t c) (p : Nat)
    (h : Value.null ∉ groupKeyR t.cols kcs (t.rows.getD p [])) :
    groupKeyR t.cols kcs ((applyCol t kcs c).rows.getD p []) =
      groupKeyR t.cols kcs (t.rows.getD p []) := by
  rcases Nat.lt_or_ge p t.rows.length with hp | hp
  · by_cases hckc : c ∈ kcs
    · have hs : (t.rows.getD p []).set (t.cols.indexOf c) (cell t.cols (t.rows.getD p []) c)
          = t.rows.getD p [] := set_getD_self _ _ _ Value.null rfl
      rw [applyCol_row hp, newCell_keycol (hnum hckc) hckc hp h, hs]
    · apply List.map_congr_left
      intro c' hc'
      have hne : c' ≠ c := fun hcc => hckc (hcc ▸ hc')
      rw [applyCol_row hp]
      show (_ : List Value).getD (t.cols.indexOf c') Value.null =
        (t.rows.getD p []).getD (t.cols.indexOf c') Value.null
      exact getD_set_ne _ _ _ _ _ (indexOf_ne_indexOf hc hne).symm
  · have h1 : (applyCol t kcs c).rows.getD p [] = [] := (applyCol_row_out hp).1
    have h2 : t.rows.getD p [] = [] := List.getD_eq_default _ _ hp
    rw [h1, h2]

theorem groupPositions_applyCol {t : Table} {kcs : List String} {c : String} {k : List Value}
    (hrect : t.Rect) (hc : c ∈ t.cols) (hnum : c ∈ kcs → NumericCol t c)
    (hk : Value.null ∉ k) :
    groupPositions t.cols kcs (applyCol t kcs c).rows k =
      groupPositions t.cols kcs t.rows k := by
  unfold groupPositions
  rw [applyCol_rows_length]
  apply List.filter_congr
  intro q hq
  have hql : q < t.rows.length := List.mem_range.mp hq
  by_cases hv : Value.null ∈ groupKeyR t.cols kcs (t.rows.getD q [])
  · have h1 : groupKeyR t.cols kcs (t.rows.getD q []) ≠ k := by
      intro he
      exact hk (he ▸ hv)
    have h2 : groupKeyR t.cols kcs ((applyCol t kcs c).rows.getD q []) ≠ k := by
      intro he
      exact hk (he ▸ applyCol_key_invalid hc q hv)
    exact decide_eq_decide.mpr (iff_of_false h2 h1)
  · rw [applyCol_key_valid hrect hc hnum q hv]

theorem groupSeries_applyCol {t : Table} {kcs : List String} {c c'' : String} {k : List Value}
    (hrect : t.Rect) (hc : c ∈ t.cols) (hnum : c ∈ kcs → NumericCol t c)
    (hk : Value.null ∉ k) (hne : c'' ≠ c) :
    groupSeries t.cols kcs (t.cols.indexOf c'') (applyCol t kcs c).rows k =
      groupSeries t.cols kcs (t.cols.indexOf c'') t.rows k := by
  unfold groupSeries
  rw [groupPositions_applyCol hrect hc hnum hk]
  apply List.map_congr_left
  intro q hq
  have hql : q < t.rows.length := (mem_groupPositions.mp hq).1
  rw [applyCol_row hql]
  congr 1
  exact getD_set_ne _ _ _ _ _ (indexOf_ne_indexOf hc hne).symm

theorem newCell_applyCol {t : Table} {kcs : List String} {c c'' : String}
    (hrect : t.Rect) (hc : c ∈ t.cols) (hnum : c ∈ kcs → NumericCol t c)
    (hne : c'' ≠ c) {p : Nat} (hp : p < t.rows.length) :
    newCell t.cols kcs (t.cols.indexOf c'') (applyCol t kcs c).rows p =
      newCell t.cols kcs (t.cols.indexOf c'') t.rows p := by
  by_cases hv : Value.null ∈ groupKeyR t.cols kcs (t.rows.getD p [])
  · rw [newCell_of_invalid (applyCol_key_invalid hc p hv), newCell_of_invalid hv]
  · have hkeq := applyCol_key_valid hrect hc hnum p hv
    have hv' : Value.null ∉ groupKeyR t.cols kcs ((applyCol t kcs c).rows.getD p []) := by
      rw [hkeq]
      exact hv
    rw [newCell_of_valid hv', newCell_of_valid hv, hkeq]
    rw [groupPositions_applyCol hrect hc hnum hv, groupSeries_applyCol hrect hc hnum hv hne]

theorem numView_writeBack (o : Option ℚ) : numView (writeBack o) = o := by
  cases o <;> rfl

theorem groupPositions_nodup (cols kcs : List String) (rows : List (List Value))
    (k : List Value) : (groupPositions cols kcs rows k).Nodup :=
  List.Nodup.filter _ (List.nodup_range _)

theorem nodup_indexOf_getElem {α : Type} [DecidableEq α] {l : List α} (h : l.Nodup)
    {m : Nat} (hm : m < l.length) : l.indexOf l[m] = m := by
  have hmem : l[m] ∈ l := List.getElem_mem hm
  have hlt : l.indexOf l[m] < l.length := List.indexOf_lt_length.2 hmem
  have := List.getElem_indexOf hlt
  exact (List.Nodup.getElem_inj_iff h).mp this

theorem NumericCol_applyCol_ne {t : Table} {kcs : List String} {c c'' : String}
    (hc : c ∈ t.cols) (hne : c'' ≠ c) (hnum : NumericCol t c'') :
    NumericCol (applyCol t kcs c) c'' := by
  intro r hr
  simp only [applyCol, List.mem_map, List.mem_range] at hr
  rcases hr with ⟨p, hp, rfl⟩
  have h1 : cell (applyCol t kcs c).cols ((t.rows.getD p []).set (t.cols.indexOf c)
      (newCell t.cols kcs (t.cols.indexOf c) t.rows p)) c'' = cellAt (applyCol t kcs c) p c'' := by
    unfold cellAt
    rw [applyCol_row hp]
  rw [h1, applyCol_cell_ne hc hne]
  exact hnum _ (getD_mem_of_lt [] hp)

theorem NumericCol_applyCol_self {t : Table} {kcs : List String} {c : String}
    (hrect : t.Rect) (hc : c ∈ t.cols) : NumericCol (applyCol t kcs c) c := by
  intro r hr
  simp only [applyCol, List.mem_map, List.mem_range] at hr
  rcases hr with ⟨p, hp, rfl⟩
  have hrl : (t.rows.getD p []).length = t.cols.length := hrect _ (getD_mem_of_lt [] hp)
  have hcl : t.cols.indexOf c < (t.rows.getD p []).length := by
    rw [hrl]
    exact List.indexOf_lt_length.2 hc
  rw [show (applyCol t kcs c).cols = t.cols from rfl]
  show cell t.cols _ c = Value.null ∨ ∃ q, cell t.cols _ c = Value.num q
  unfold cell
  rw [getD_set_self _ _ _ _ hcl]
  by_cases hv : Value.null ∈ groupKeyR t.cols kcs (t.rows.getD p [])
  · left
    exact newCell_of_invalid hv
  · rw [newCell_of_valid hv]
    rcases h : (interp_linear_both (groupSeries t.cols kcs (t.cols.indexOf c) t.rows
        (groupKeyR t.cols kcs (t.rows.getD p [])))).getD
        ((groupPositions t.cols kcs t.rows
          (groupKeyR t.cols kcs (t.rows.getD p []))).indexOf p) none with _ | q
    · left
      rfl
    · right
      exact ⟨q, rfl⟩

theorem groupSeries_applyCol_self {t : Table} {kcs : List String} {c : String} {p : Nat}
    (hrect : t.Rect) (hc : c ∈ t.cols) (hnumc : c ∈ kcs → NumericCol t c)
    (hv : Value.null ∉ groupKeyR t.cols kcs (t.rows.getD p [])) :
    groupSeries t.cols kcs (t.cols.indexOf c) (applyCol t kcs c).rows
      (groupKeyR t.cols kcs (t.rows.getD p [])) =
    interp_linear_both (groupSeries t.cols kcs (t.cols.indexOf c) t.rows
      (groupKeyR t.cols kcs (t.rows.getD p []))) := by
  unfold groupSeries
  rw [groupPositions_applyCol hrect hc hnumc hv]
  apply List.ext_getElem
  · simp [interp_length]
  · intro m h1 h2
    simp only [List.getElem_map]
    have hm : m < (groupPositions t.cols kcs t.rows
        (groupKeyR t.cols kcs (t.rows.getD p []))).length := by simpa using h1
    have hqmem := List.getElem_mem hm
    rcases mem_groupPositions.mp hqmem with ⟨hql, hkq⟩
    have hrl : (t.rows.getD ((groupPositions t.cols kcs t.rows
        (groupKeyR t.cols kcs (t.rows.getD p [])))[m]) []).length = t.cols.length :=
      hrect _ (getD_mem_of_lt [] hql)
    rw [applyCol_row hql]
    rw [getD_set_self _ _ _ _ (by rw [hrl]; exact List.indexOf_lt_length.2 hc)]
    have hvq : Value.null ∉ groupKeyR t.cols kcs (t.rows.getD ((groupPositions t.cols kcs t.rows
        (groupKeyR t.cols kcs (t.rows.getD p [])))[m]) []) := by
      rw [hkq]
      exact hv
    rw [newCell_of_valid hvq, hkq, numView_writeBack]
    rw [nodup_indexOf_getElem (groupPositions_nodup _ _ _ _) hm]
    exact List.getD_eq_getElem _ none (by rw [interp_length]; simpa [groupSeries] using hm)

theorem newCell_applyCol_self {t : Table} {kcs : List String} {c : String}
    (hrect : t.Rect) (hc : c ∈ t.cols) (hnumc : c ∈ kcs → NumericCol t c)
    {p : Nat} (hp : p < t.rows.length) :
    newCell t.cols kcs (t.cols.indexOf c) (applyCol t kcs c).rows p =
      newCell t.cols kcs (t.cols.indexOf c) t.rows p := by
  by_cases hv : Value.null ∈ groupKeyR t.cols kcs (t.rows.getD p [])
  · rw [newCell_of_invalid (applyCol_key_invalid hc p hv), newCell_of_invalid hv]
  · have hkeq := applyCol_key_valid hrect hc hnumc p hv
    have hv' : Value.null ∉ groupKeyR t.cols kcs ((applyCol t kcs c).rows.getD p []) := by
      rw [hkeq]
      exact hv
    rw [newCell_of_valid hv', newCell_of_valid hv, hkeq]
    rw [groupPositions_applyCol hrect hc hnumc hv]
    rw [groupSeries_applyCol_self hrect hc hnumc hv, interp_idem]

/-! ### Properties of the `interpolate_columns` loop -/

theorem go_ok_cols {kcs cti : List String} {t t' : Table}
    (hok : interpolate_go kcs t cti = .ok t') : t'.cols = t.cols := by
  induction cti generalizing t with
  | nil =>
    simp only [interpolate_go, Except.ok.injEq] at hok
    rw [← hok]
  | cons c cs ih =>
    simp only [interpolate_go] at hok
    split at hok
    · split at hok
      · exact (ih hok).trans (applyCol_cols t kcs c)
      · exact Except.noConfusion hok
    · exact ih hok

theorem go_ok_rows_length {kcs cti : List String} {t t' : Table}
    (hok : interpolate_go kcs t cti = .ok t') : t'.rows.length = t.rows.length := by
  induction cti generalizing t with
  | nil =>
    simp only [interpolate_go, Except.ok.injEq] at hok
    rw [← hok]
  | cons c cs ih =>
    simp only [interpolate_go] at hok
    split at hok
    · split at hok
      · exact (ih hok).trans (applyCol_rows_length t kcs c)
      · exact Except.noConfusion hok
    · exact ih hok

theorem go_ok_rect {kcs cti : List String} {t t' : Table} (hrect : t.Rect)
    (hok : interpolate_go kcs t cti = .ok t') : t'.Rect := by
  induction cti generalizing t with
  | nil =>
    simp only [interpolate_go, Except.ok.injEq] at hok
    rw [← hok]
    exact hrect
  | cons c cs ih =>
    simp only [interpolate_go] at hok
    split at hok
    · split at hok
      · exact ih (applyCol_rect hrect) hok
      · exact Except.noConfusion hok
    · exact ih hrect hok

theorem go_cell_not_mem {kcs cti : List String} {t t' : Table} {c' : String}
    (hok : interpolate_go kcs t cti = .ok t') (hc' : c' ∉ cti) (p : Nat) :
    cellAt t' p c' = cellAt t p c' := by
  induction cti generalizing t with
  | nil =>
    simp only [interpolate_go, Except.ok.injEq] at hok
    rw [← hok]
  | cons c cs ih =>
    have hne : c' ≠ c := fun h => hc' (h ▸ List.mem_cons_self c cs)
    have hncs : c' ∉ cs := fun h => hc' (List.mem_cons_of_mem c h)
    simp only [interpolate_go] at hok
    split at hok
    next hc =>
      split at hok
      · exact (ih hok hncs).trans (applyCol_cell_ne hc hne p)
      · exact Except.noConfusion hok
    next hc => exact ih hok hncs

theorem go_ok_guard {kcs cti : List String} {t t' : Table}
    (hok : interpolate_go kcs t cti = .ok t') (hex : ∃ c ∈ cti, c ∈ t.cols) :
    kcs ≠ [] ∧ ∀ x ∈ kcs, x ∈ t.cols := by
  induction cti generalizing t with
  | nil =>
    rcases hex with ⟨c, hc, _⟩
    exact absurd hc (List.not_mem_nil c)
  | cons c cs ih =>
    simp only [interpolate_go] at hok
    split at hok
    next hc =>
      split at hok
      next hg => exact hg
      next hg => exact Except.noConfusion hok
    next hc =>
      rcases hex with ⟨c'', hc''mem, hc''in⟩
      rcases List.mem_cons.mp hc''mem with rfl | htail
      · exact absurd hc''in hc
      · exact ih hok ⟨c'', htail, hc''in⟩

theorem go_cell_mem {kcs cti : List String} {t t' : Table}
    (hrect : t.Rect) (hnodup : cti.Nodup)
    (hnum : ∀ c ∈ cti, c ∈ t.cols → NumericCol t c)
    (hok : interpolate_go kcs t cti = .ok t') :
    ∀ c ∈ cti, c ∈ t.cols → ∀ p, p < t.rows.length →
      cellAt t' p c = newCell t.cols kcs (t.cols.indexOf c) t.rows p := by
  induction cti generalizing t with
  | nil => intro c hc; exact absurd hc (List.not_mem_nil c)
  | cons c0 cs ih =>
    have hnodup' : cs.Nodup := (List.nodup_cons.mp hnodup).2
    have hc0ncs : c0 ∉ cs := (List.nodup_cons.mp hnodup).1
    intro c hcmem hcin p hp
    simp only [interpolate_go] at hok
    split at hok
    next hc0 =>
      split at hok
      next hg =>
        have hnum0 : c0 ∈ kcs → NumericCol t c0 := fun _ => hnum c0 (List.mem_cons_self c0 cs) hc0
        have hnum1 : ∀ c'' ∈ cs, c'' ∈ (applyCol t kcs c0).cols → NumericCol (applyCol t kcs c0) c'' := by
          intro c'' hc''mem hc''in
          have hne : c'' ≠ c0 := fun h => hc0ncs (h ▸ hc''mem)
          exact NumericCol_applyCol_ne hc0 hne
            (hnum c'' (List.mem_cons_of_mem c0 hc''mem) hc''in)
        rcases List.mem_cons.mp hcmem with rfl | htail
        · rw [go_cell_not_mem hok hc0ncs p]
          exact applyCol_cell_eq hrect hc0 hp
        · have hne : c ≠ c0 := fun h => hc0ncs (h ▸ htail)
          have hres := ih (applyCol_rect hrect) hnodup' hnum1 hok c htail hcin p
            (by rw [applyCol_rows_length]; exact hp)
          rw [applyCol_cols] at hres
          rw [hres]
          exact newCell_applyCol hrect hc0 hnum0 hne hp
      next hg => exact Except.noConfusion hok
    next hc0 =>
      rcases List.mem_cons.mp hcmem with rfl | htail
      · exact absurd hcin hc0
      · exact ih hrect hnodup' (fun c'' h1 h2 => hnum c'' (List.mem_cons_of_mem c0 h1) h2)
          hok c htail hcin p hp

theorem applyCol_of_fixed {kcs : List String} {t : Table} {c : String}
    (hfix : FixedCol kcs t c) : applyCol t kcs c = t := by
  have hrows : (applyCol t kcs c).rows = t.rows := by
    apply List.ext_getElem (by simp [applyCol])
    intro p h1 h2
    simp only [applyCol, List.getElem_map, List.getElem_range]
    have hcell := (hfix p h2).symm
    unfold cellAt cell at hcell
    rw [hcell, set_getD_self _ _ _ Value.null rfl]
    rw [List.getD_eq_getElem _ _ h2]
  cases t
  simp only [applyCol] at hrows ⊢
  rw [hrows]

theorem applyCol_fixed_self {kcs : List String} {t : Table} {c : String}
    (hrect : t.Rect) (hc : c ∈ t.cols) (hnumc : c ∈ kcs → NumericCol t c) :
    FixedCol kcs (applyCol t kcs c) c := by
  intro p hp
  have hp' : p < t.rows.length := by rw [← applyCol_rows_length t kcs c]; exact hp
  rw [applyCol_cell_eq hrect hc hp']
  rw [show (applyCol t kcs c).cols = t.cols from rfl]
  exact (newCell_applyCol_self hrect hc hnumc hp').symm

theorem go_preserves_fixed {kcs : List String} {cs : List String} {t t' : Table} {c : String}
    (hrect : t.Rect)
    (hnum : ∀ c'' ∈ cs, c'' ∈ t.cols → NumericCol t c'')
    (hnumc : c ∈ kcs → NumericCol t c)
    (hfix : FixedCol kcs t c)
    (hok : interpolate_go kcs t cs = .ok t') : FixedCol kcs t' c := by
  induction cs generalizing t with
  | nil =>
    simp only [interpolate_go, Except.ok.injEq] at hok
    rw [← hok]
    exact hfix
  | cons c2 cs' ih =>
    simp only [interpolate_go] at hok
    split at hok
    next hc2 =>
      split at hok
      next hg =>
        by_cases hceq : c2 = c
        · subst hceq
          rw [applyCol_of_fixed hfix] at hok
          exact ih hrect (fun x h1 h2 => hnum x (List.mem_cons_of_mem c2 h1) h2) hnumc hfix hok
        · have hne : c ≠ c2 := fun h => hceq h.symm
          have hnum2 : NumericCol t c2 := hnum c2 (List.mem_cons_self c2 cs') hc2
          have hfix1 : FixedCol kcs (applyCol t kcs c2) c := by
            intro p hp
            have hp' : p < t.rows.length := by
              rw [← applyCol_rows_length t kcs c2]; exact hp
            rw [applyCol_cell_ne hc2 hne p, hfix p hp']
            rw [show (applyCol t kcs c2).cols = t.cols from rfl]
            exact (newCell_applyCol hrect hc2 (fun _ => hnum2) hne hp').symm
          have hnum1 : ∀ c'' ∈ cs', c'' ∈ (applyCol t kcs c2).cols →
              NumericCol (applyCol t kcs c2) c'' := by
            intro c'' h1 h2
            by_cases hcc : c'' = c2
            · subst hcc
              exact NumericCol_applyCol_self hrect hc2
            · exact NumericCol_applyCol_ne hc2 hcc
                (hnum c'' (List.mem_cons_of_mem c2 h1) h2)
          have hnumc1 : c ∈ kcs → NumericCol (applyCol t kcs c2) c := fun hk =>
            NumericCol_applyCol_ne hc2 hne (hnumc hk)
          exact ih (applyCol_rect hrect) hnum1 hnumc1 hfix1 hok
      next hg => exact Except.noConfusion hok
    next hc2 =>
      exact ih hrect (fun x h1 h2 => hnum x (List.mem_cons_of_mem c2 h1) h2) hnumc hfix hok

theorem go_fixed_all {kcs cti : List String} {t t' : Table}
    (hrect : t.Rect)
    (hnum : ∀ c ∈ cti, c ∈ t.cols → NumericCol t c)
    (hok : interpolate_go kcs t cti = .ok t') :
    ∀ c ∈ cti, c ∈ t'.cols → FixedCol kcs t' c := by
  induction cti generalizing t with
  | nil => intro c hc; exact absurd hc (List.not_mem_nil c)
  | cons c0 cs ih =>
    intro c hcmem hcin
    simp only [interpolate_go] at hok
    split at hok
    next hc0 =>
      split at hok
      next hg =>
        have hnum0 : c0 ∈ kcs → NumericCol t c0 := fun _ => hnum c0 (List.mem_cons_self c0 cs) hc0
        have hnum1 : ∀ c'' ∈ cs, c'' ∈ (applyCol t kcs c0).cols →
            NumericCol (applyCol t kcs c0) c'' := by
          intro c'' h1 h2
          by_cases hcc : c'' = c0
          · subst hcc
            exact NumericCol_applyCol_self hrect hc0
          · exact NumericCol_applyCol_ne hc0 hcc (hnum c'' (List.mem_cons_of_mem c0 h1) h2)
        rcases List.mem_cons.mp hcmem with rfl | htail
        · exact go_preserves_fixed (applyCol_rect hrect) hnum1
            (fun hk => NumericCol_applyCol_self hrect hc0)
            (applyCol_fixed_self hrect hc0 hnum0) hok
        · exact ih (applyCol_rect hrect) hnum1 hok c htail hcin
      next hg => exact Except.noConfusion hok
    next hc0 =>
      rcases List.mem_cons.mp hcmem with rfl | htail
      · rw [go_ok_cols hok] at hcin
        exact absurd hcin hc0
      · exact ih hrect (fun c'' h1 h2 => hnum c'' (List.mem_cons_of_mem c0 h1) h2) hok c htail hcin

theorem go_replay {kcs cti : List String} {t : Table}
    (hfix : ∀ c ∈ cti, c ∈ t.cols → FixedCol kcs t c)
    (hguard : (∃ c ∈ cti, c ∈ t.cols) → (kcs ≠ [] ∧ ∀ x ∈ kcs, x ∈ t.cols)) :
    interpolate_go kcs t cti = .ok t := by
  induction cti with
  | nil => rfl
  | cons c0 cs ih =>
    simp only [interpolate_go]
    by_cases hc0 : c0 ∈ t.cols
    · rw [if_pos hc0, if_pos (hguard ⟨c0, List.mem_cons_self c0 cs, hc0⟩)]
      rw [applyCol_of_fixed (hfix c0 (List.mem_cons_self c0 cs) hc0)]
      exact ih (fun c h1 h2 => hfix c (List.mem_cons_of_mem c0 h1) h2)
        (fun ⟨c, h1, h2⟩ => hguard ⟨c, List.mem_cons_of_mem c0 h1, h2⟩)
    · rw [if_neg hc0]
      exact ih (fun c h1 h2 => hfix c (List.mem_cons_of_mem c0 h1) h2)
        (fun ⟨c, h1, h2⟩ => hguard ⟨c, List.mem_cons_of_mem c0 h1, h2⟩)

theorem series_getD_of_all_none {xs : List (Option ℚ)}
    (h : ∀ x ∈ xs, x = none) {j : Nat} (hj : j < xs.length) : xs.getD j none = none := by
  rw [List.getD_eq_getElem _ _ hj]
  exact h _ (List.getElem_mem hj)

theorem groupSeries_length (cols kcs : List String) (ci : Nat) (rows : List (List Value))
    (k : List Value) :
    (groupSeries cols kcs ci rows k).length = (groupPositions cols kcs rows k).length := by
  simp [groupSeries]

theorem groupSeries_getD_eq {cols kcs : List String} {ci : Nat} {rows : List (List Value)}
    {k : List Value} {j : Nat} (hj : j < (groupPositions cols kcs rows k).length) :
    (groupSeries cols kcs ci rows k).getD j none =
      numView ((rows.getD ((groupPositions cols kcs rows k).getD j 0) []).getD ci Value.null) := by
  unfold groupSeries
  rw [List.getD_eq_getElem _ _ (by simpa using hj), List.getElem_map]
  rw [List.getD_eq_getElem _ _ hj]

theorem groupPositions_indexOf_getD {cols kcs : List String} {rows : List (List Value)}
    {k : List Value} {j : Nat} (hj : j < (groupPositions cols kcs rows k).length) :
    (groupPositions cols kcs rows k).indexOf ((groupPositions cols kcs rows k).getD j 0) = j := by
  rw [List.getD_eq_getElem _ _ hj]
  exact nodup_indexOf_getElem (groupPositions_nodup _ _ _ _) hj

/-- The interpolated new cell of a valid-key row, written through the group
series at the row's in-group index. -/
theorem newCell_valid_getD {cols kcs : List String} {ci : Nat} {rows : List (List Value)}
    {k : List Value} {j : Nat} (hk : Value.null ∉ k)
    (hj : j < (groupPositions cols kcs rows k).length) :
    newCell cols kcs ci rows ((groupPositions cols kcs rows k).getD j 0) =
      writeBack ((interp_linear_both (groupSeries cols kcs ci rows k)).getD j none) := by
  have hmem : (groupPositions cols kcs rows k).getD j 0 ∈ groupPositions cols kcs rows k :=
    getD_mem_of_lt 0 hj
  rcases mem_groupPositions.mp hmem with ⟨hql, hkey⟩
  have hv : Value.null ∉ groupKeyR cols kcs (rows.getD ((groupPositions cols kcs rows k).getD j 0) []) := by
    rw [hkey]
    exact hk
  rw [newCell_of_valid hv, hkey, groupPositions_indexOf_getD hj]

/-- Claim C10: `interpolate_columns` changes only the listed columns: the
output has the same column list, the same number of rows in the same
positions, and every cell of a column not named in
`cols_to_interpolate` is unchanged (in particular all group-key columns
and the date column). -/
theorem interpolate_columns_frame {t : Table} {cti : List String} {gb : GroupCols} {t' : Table}
    (hok : interpolate_columns t cti gb = .ok t') :
    t'.cols = t.cols ∧ t'.rows.length = t.rows.length ∧
      ∀ c', c' ∉ cti → ∀ p, cellAt t' p c' = cellAt t p c' :=
  ⟨go_ok_cols hok, go_ok_rows_length hok, fun c' h p => go_cell_not_mem hok h p⟩

/-- Claim C9: a name in `cols_to_interpolate` that is not a column of the
table is skipped silently: the call behaves exactly as if the name were not
listed, and no column is ever added to the table. -/
theorem interpolate_columns_skips_absent_column {t : Table} {c' : String} {cs : List String}
    {gb : GroupCols} (habs : c' ∉ t.cols) :
    interpolate_columns t (c' :: cs) gb = interpolate_columns t cs gb ∧
      ∀ t', interpolate_columns t (c' :: cs) gb = .ok t' → t'.cols = t.cols := by
  constructor
  · unfold interpolate_columns
    simp only [interpolate_go]
    rw [if_neg habs]
  · intro t' hok
    exact go_ok_cols hok

/-- Claim C7: `interpolate_columns` is idempotent: on a rectangular table
whose listed present columns are numeric, a second application returns the
first application's output unchanged. -/
theorem interpolate_columns_idempotent {t : Table} {cti : List String} {gb : GroupCols}
    {t' : Table} (hrect : t.Rect)
    (hnum : ∀ c ∈ cti, c ∈ t.cols → NumericCol t c)
    (hok : interpolate_columns t cti gb = .ok t') :
    interpolate_columns t' cti gb = .ok t' := by
  unfold interpolate_columns at hok ⊢
  apply go_replay
  · exact go_fixed_all hrect hnum hok
  · intro hex
    rcases hex with ⟨c, h1, h2⟩
    rw [go_ok_cols hok] at h2
    have hg := go_ok_guard hok ⟨c, h1, h2⟩
    exact ⟨hg.1, fun x hx => by rw [go_ok_cols hok]; exact hg.2 x hx⟩

/-- Claim C4: after `interpolate_columns`, for every group and every listed
present numeric column, a group with at least one non-null observation in
that column has no null left in it, and a group whose column is entirely
null stays entirely null — and the call returns normally either way. -/
theorem interpolate_no_null_left_in_observed_groups {t : Table} {cti : List String}
    {gb : GroupCols} {t' : Table}
    (hrect : t.Rect) (hnodup : cti.Nodup)
    (hnum : ∀ c ∈ cti, c ∈ t.cols → NumericCol t c)
    (hok : interpolate_columns t cti gb = .ok t') :
    ∀ c ∈ cti, c ∈ t.cols → ∀ k : List Value, Value.null ∉ k →
      ∀ p ∈ groupPositions t.cols gb.keyCols t.rows k,
        ((∃ p0 ∈ groupPositions t.cols gb.keyCols t.rows k, cellAt t p0 c ≠ Value.null) →
            ∃ q : ℚ, cellAt t' p c = Value.num q) ∧
        ((∀ p0 ∈ groupPositions t.cols gb.keyCols t.rows k, cellAt t p0 c = Value.null) →
            cellAt t' p c = Value.null) := by
  intro c hc hcin k hk p hp
  rcases mem_groupPositions.mp hp with ⟨hpl, hpk⟩
  have hj : (groupPositions t.cols gb.keyCols t.rows k).indexOf p <
      (groupPositions t.cols gb.keyCols t.rows k).length := List.indexOf_lt_length.2 hp
  have hgd : (groupPositions t.cols gb.keyCols t.rows k).getD
      ((groupPositions t.cols gb.keyCols t.rows k).indexOf p) 0 = p := by
    rw [List.getD_eq_getElem _ _ hj]
    exact List.getElem_indexOf hj
  have hnc : newCell t.cols gb.keyCols (t.cols.indexOf c) t.rows p =
      writeBack ((interp_linear_both (groupSeries t.cols gb.keyCols (t.cols.indexOf c)
        t.rows k)).getD ((groupPositions t.cols gb.keyCols t.rows k).indexOf p) none) := by
    conv_lhs => rw [← hgd]
    exact newCell_valid_getD hk hj
  have hmaster := (go_cell_mem hrect hnodup hnum hok c hc hcin p hpl).trans hnc
  constructor
  · rintro ⟨p0, hp0mem, hp0ne⟩
    have hj0 : (groupPositions t.cols gb.keyCols t.rows k).indexOf p0 <
        (groupPositions t.cols gb.keyCols t.rows k).length := List.indexOf_lt_length.2 hp0mem
    have hgd0 : (groupPositions t.cols gb.keyCols t.rows k).getD
        ((groupPositions t.cols gb.keyCols t.rows k).indexOf p0) 0 = p0 := by
      rw [List.getD_eq_getElem _ _ hj0]
      exact List.getElem_indexOf hj0
    have hp0l : p0 < t.rows.length := (mem_groupPositions.mp hp0mem).1
    rcases hnum c hc hcin _ (getD_mem_of_lt [] hp0l) with hnull | ⟨q0, hq0⟩
    · exact absurd hnull hp0ne
    · have hs0 : (groupSeries t.cols gb.keyCols (t.cols.indexOf c) t.rows k).getD
          ((groupPositions t.cols gb.keyCols t.rows k).indexOf p0) none = some q0 := by
        rw [groupSeries_getD_eq hj0, hgd0]
        rw [show (t.rows.getD p0 []).getD (t.cols.indexOf c) Value.null =
          cell t.cols (t.rows.getD p0 []) c from rfl, hq0]
        rfl
      have hsome := interp_isSome hs0
        (i := (groupPositions t.cols gb.keyCols t.rows k).indexOf p)
        (by rw [groupSeries_length]; exact hj)
      rcases Option.isSome_iff_exists.mp hsome with ⟨q, hq⟩
      refine ⟨q, ?_⟩
      rw [hmaster, hq]
      rfl
  · intro hall
    have hallnone : ∀ x ∈ groupSeries t.cols gb.keyCols (t.cols.indexOf c) t.rows k,
        x = none := by
      intro x hx
      simp only [groupSeries, List.mem_map] at hx
      rcases hx with ⟨q0, hq0mem, rfl⟩
      have := hall q0 hq0mem
      rw [show cellAt t q0 c = (t.rows.getD q0 []).getD (t.cols.indexOf c) Value.null
        from rfl] at this
      rw [this]
      rfl
    rw [hmaster, interp_of_all_none (fun j hjl => series_getD_of_all_none hallnone hjl)]
    rw [series_getD_of_all_none hallnone (by rw [groupSeries_length]; exact hj)]
    rfl

/-- Claim C5: for three in-group-consecutive rows of one group whose values
in a listed numeric column read `a, null, b` with `a`, `b` non-null,
`interpolate_columns` fills the middle cell with exactly `(a + b) / 2`. -/
theorem interpolate_linear_midpoint {t : Table} {cti : List String} {gb : GroupCols} {t' : Table}
    (hrect : t.Rect) (hnodup : cti.Nodup)
    (hnum : ∀ c ∈ cti, c ∈ t.cols → NumericCol t c)
    (hok : interpolate_columns t cti gb = .ok t')
    {c : String} (hc : c ∈ cti) (hcin : c ∈ t.cols)
    {k : List Value} (hk : Value.null ∉ k) {m : Nat}
    (hm : m + 2 < (groupPositions t.cols gb.keyCols t.rows k).length)
    {a b : ℚ}
    (ha : cellAt t ((groupPositions t.cols gb.keyCols t.rows k).getD m 0) c = Value.num a)
    (hmid : cellAt t ((groupPositions t.cols gb.keyCols t.rows k).getD (m + 1) 0) c = Value.null)
    (hb : cellAt t ((groupPositions t.cols gb.keyCols t.rows k).getD (m + 2) 0) c = Value.num b) :
    cellAt t' ((groupPositions t.cols gb.keyCols t.rows k).getD (m + 1) 0) c =
      Value.num ((a + b) / 2) := by
  have hpmem : (groupPositions t.cols gb.keyCols t.rows k).getD (m + 1) 0 ∈
      groupPositions t.cols gb.keyCols t.rows k := getD_mem_of_lt 0 (by omega)
  have hpl := (mem_groupPositions.mp hpmem).1
  have hmaster := (go_cell_mem hrect hnodup hnum hok c hc hcin _ hpl).trans
    (newCell_valid_getD hk (by omega))
  have hsa : (groupSeries t.cols gb.keyCols (t.cols.indexOf c) t.rows k).getD m none
      = some a := by
    rw [groupSeries_getD_eq (by omega)]
    rw [show ((t.rows.getD ((groupPositions t.cols gb.keyCols t.rows k).getD m 0) []).getD
      (t.cols.indexOf c) Value.null) =
      cellAt t ((groupPositions t.cols gb.keyCols t.rows k).getD m 0) c from rfl, ha]
    rfl
  have hsmid : (groupSeries t.cols gb.keyCols (t.cols.indexOf c) t.rows k).getD (m + 1) none
      = none := by
    rw [groupSeries_getD_eq (by omega)]
    rw [show ((t.rows.getD ((groupPositions t.cols gb.keyCols t.rows k).getD (m + 1) 0) []).getD
      (t.cols.indexOf c) Value.null) =
      cellAt t ((groupPositions t.cols gb.keyCols t.rows k).getD (m + 1) 0) c from rfl, hmid]
    rfl
  have hsb : (groupSeries t.cols gb.keyCols (t.cols.indexOf c) t.rows k).getD (m + 2) none
      = some b := by
    rw [groupSeries_getD_eq (by omega)]
    rw [show ((t.rows.getD ((groupPositions t.cols gb.keyCols t.rows k).getD (m + 2) 0) []).getD
      (t.cols.indexOf c) Value.null) =
      cellAt t ((groupPositions t.cols gb.keyCols t.rows k).getD (m + 2) 0) c from rfl, hb]
    rfl
  rw [hmaster, interp_middle hsa hsmid hsb]
  rfl

/-- Claim C6: boundary extrapolation of `interpolate_columns`: if the first
non-null value of a group's listed numeric column is `v` at in-group
position `m`, every cell strictly before `m` is filled with exactly `v`;
symmetrically, cells after the last non-null value are filled with that
value — neither side is left null. -/
theorem interpolate_boundary_extrapolation {t : Table} {cti : List String} {gb : GroupCols}
    {t' : Table}
    (hrect : t.Rect) (hnodup : cti.Nodup)
    (hnum : ∀ c ∈ cti, c ∈ t.cols → NumericCol t c)
    (hok : interpolate_columns t cti gb = .ok t')
    {c : String} (hc : c ∈ cti) (hcin : c ∈ t.cols)
    {k : List Value} (hk : Value.null ∉ k) :
    (∀ m, m < (groupPositions t.cols gb.keyCols t.rows k).length → ∀ v : ℚ,
      cellAt t ((groupPositions t.cols gb.keyCols t.rows k).getD m 0) c = Value.num v →
      (∀ j, j < m →
        cellAt t ((groupPositions t.cols gb.keyCols t.rows k).getD j 0) c = Value.null) →
      ∀ j, j < m →
        cellAt t' ((groupPositions t.cols gb.keyCols t.rows k).getD j 0) c = Value.num v) ∧
    (∀ m, m < (groupPositions t.cols gb.keyCols t.rows k).length → ∀ v : ℚ,
      cellAt t ((groupPositions t.cols gb.keyCols t.rows k).getD m 0) c = Value.num v →
      (∀ j, m < j → j < (groupPositions t.cols gb.keyCols t.rows k).length →
        cellAt t ((groupPositions t.cols gb.keyCols t.rows k).getD j 0) c = Value.null) →
      ∀ j, m < j → j < (groupPositions t.cols gb.keyCols t.rows k).length →
        cellAt t' ((groupPositions t.cols gb.keyCols t.rows k).getD j 0) c = Value.num v) := by
  have hcell : ∀ j, j < (groupPositions t.cols gb.keyCols t.rows k).length →
      (groupSeries t.cols gb.keyCols (t.cols.indexOf c) t.rows k).getD j none =
        numView (cellAt t ((groupPositions t.cols gb.keyCols t.rows k).getD j 0) c) := by
    intro j hj
    rw [groupSeries_getD_eq hj]
    rfl
  have hmaster : ∀ j, j < (groupPositions t.cols gb.keyCols t.rows k).length →
      cellAt t' ((groupPositions t.cols gb.keyCols t.rows k).getD j 0) c =
        writeBack ((interp_linear_both (groupSeries t.cols gb.keyCols (t.cols.indexOf c)
          t.rows k)).getD j none) := by
    intro j hj
    have hpmem : (groupPositions t.cols gb.keyCols t.rows k).getD j 0 ∈
        groupPositions t.cols gb.keyCols t.rows k := getD_mem_of_lt 0 hj
    exact (go_cell_mem hrect hnodup hnum hok c hc hcin _
      (mem_groupPositions.mp hpmem).1).trans (newCell_valid_getD hk hj)
  constructor
  · intro m hm v hv hlead j hj
    have hsm : (groupSeries t.cols gb.keyCols (t.cols.indexOf c) t.rows k).getD m none
        = some v := by
      rw [hcell m hm, hv]
      rfl
    have hsnone : ∀ j', j' < m →
        (groupSeries t.cols gb.keyCols (t.cols.indexOf c) t.rows k).getD j' none = none := by
      intro j' hj'
      rw [hcell j' (by omega), hlead j' hj']
      rfl
    rw [hmaster j (by omega), interp_leading hsm hsnone hj]
    rfl
  · intro m hm v hv htrail j hjm hjl
    have hsm : (groupSeries t.cols gb.keyCols (t.cols.indexOf c) t.rows k).getD m none
        = some v := by
      rw [hcell m hm, hv]
      rfl
    have hsnone : ∀ j', m < j' →
        j' < (groupSeries t.cols gb.keyCols (t.cols.indexOf c) t.rows k).length →
        (groupSeries t.cols gb.keyCols (t.cols.indexOf c) t.rows k).getD j' none = none := by
      intro j' hj1 hj2
      rw [groupSeries_length] at hj2
      rw [hcell j' hj2, htrail j' hj1 hj2]
      rfl
    rw [hmaster j hjl, interp_trailing hsm hsnone hjm
      (by rw [groupSeries_length]; exact hjl)]
    rfl

/-! ### Lemmas about the date range and null-skipping min/max -/

theorem mem_dateRange {lo hi d : ℤ} : d ∈ dateRange lo hi ↔ lo ≤ d ∧ d ≤ hi := by
  simp only [dateRange, List.mem_map, List.mem_range]
  constructor
  · rintro ⟨n, hn, rfl⟩
    omega
  · rintro ⟨h1, h2⟩
    exact ⟨(d - lo).toNat, by omega, by omega⟩

theorem dateRange_nodup (lo hi : ℤ) : (dateRange lo hi).Nodup := by
  unfold dateRange
  apply List.Nodup.map
  · intro a b h
    have h' : lo + (a : ℤ) = lo + (b : ℤ) := h
    omega
  · exact List.nodup_range _

theorem foldl_min_le_init : ∀ (xs : List ℤ) (x : ℤ), xs.foldl min x ≤ x := by
  intro xs
  induction xs with
  | nil => intro x; exact le_refl x
  | cons y ys ih =>
    intro x
    calc (y :: ys).foldl min x = ys.foldl min (min x y) := rfl
    _ ≤ min x y := ih _
    _ ≤ x := min_le_left _ _

theorem foldl_min_le_mem : ∀ (xs : List ℤ) (x y : ℤ), y ∈ xs → xs.foldl min x ≤ y := by
  intro xs
  induction xs with
  | nil => intro x y hy; exact absurd hy (List.not_mem_nil y)
  | cons z zs ih =>
    intro x y hy
    rcases List.mem_cons.mp hy with rfl | hmem
    · calc (y :: zs).foldl min x = zs.foldl min (min x y) := rfl
      _ ≤ min x y := foldl_min_le_init _ _
      _ ≤ y := min_le_right _ _
    · exact ih (min x z) y hmem

theorem foldl_min_mem : ∀ (xs : List ℤ) (x : ℤ), xs.foldl min x ∈ x :: xs := by
  intro xs
  induction xs with
  | nil => intro x; exact List.mem_cons_self x []
  | cons y ys ih =>
    intro x
    have := ih (min x y)
    rcases List.mem_cons.mp this with heq | hmem
    · rcases min_choice x y with h | h
      · rw [show (y :: ys).foldl min x = ys.foldl min (min x y) from rfl, heq, h]
        exact List.mem_cons_self x (y :: ys)
      · rw [show (y :: ys).foldl min x = ys.foldl min (min x y) from rfl, heq, h]
        exact List.mem_cons_of_mem x (List.mem_cons_self y ys)
    · exact List.mem_cons_of_mem x (List.mem_cons_of_mem y hmem)

theorem foldl_max_init_le : ∀ (xs : List ℤ) (x : ℤ), x ≤ xs.foldl max x := by
  intro xs
  induction xs with
  | nil => intro x; exact le_refl x
  | cons y ys ih =>
    intro x
    calc x ≤ max x y := le_max_left _ _
    _ ≤ ys.foldl max (max x y) := ih _
    _ = (y :: ys).foldl max x := rfl

theorem foldl_max_mem_le : ∀ (xs : List ℤ) (x y : ℤ), y ∈ xs → y ≤ xs.foldl max x := by
  intro xs
  induction xs with
  | nil => intro x y hy; exact absurd hy (List.not_mem_nil y)
  | cons z zs ih =>
    intro x y hy
    rcases List.mem_cons.mp hy with rfl | hmem
    · calc y ≤ max x y := le_max_right _ _
      _ ≤ zs.foldl max (max x y) := foldl_max_init_le _ _
      _ = (y :: zs).foldl max x := rfl
    · exact ih (max x z) y hmem

theorem foldl_max_mem : ∀ (xs : List ℤ) (x : ℤ), xs.foldl max x ∈ x :: xs := by
  intro xs
  induction xs with
  | nil => intro x; exact List.mem_cons_self x []
  | cons y ys ih =>
    intro x
    have := ih (max x y)
    rcases List.mem_cons.mp this with heq | hmem
    · rcases max_choice x y with h | h
      · rw [show (y :: ys).foldl max x = ys.foldl max (max x y) from rfl, heq, h]
        exact List.mem_cons_self x (y :: ys)
      · rw [show (y :: ys).foldl max x = ys.foldl max (max x y) from rfl, heq, h]
        exact List.mem_cons_of_mem x (List.mem_cons_self y ys)
    · exact List.mem_cons_of_mem x (List.mem_cons_of_mem y hmem)

theorem listMin_le {l : List ℤ} {m : ℤ} (h : listMin l = some m) : ∀ y ∈ l, m ≤ y := by
  cases l with
  | nil => exact absurd h (by simp [listMin])
  | cons x xs =>
    simp only [listMin, Option.some.injEq] at h
    intro y hy
    rcases List.mem_cons.mp hy with rfl | hmem
    · rw [← h]
      exact foldl_min_le_init xs y
    · rw [← h]
      exact foldl_min_le_mem xs x y hmem

theorem le_listMax {l : List ℤ} {m : ℤ} (h : listMax l = some m) : ∀ y ∈ l, y ≤ m := by
  cases l with
  | nil => exact absurd h (by simp [listMax])
  | cons x xs =>
    simp only [listMax, Option.some.injEq] at h
    intro y hy
    rcases List.mem_cons.mp hy with rfl | hmem
    · rw [← h]
      exact foldl_max_init_le xs y
    · rw [← h]
      exact foldl_max_mem_le xs x y hmem

theorem listMin_mem {l : List ℤ} {m : ℤ} (h : listMin l = some m) : m ∈ l := by
  cases l with
  | nil => exact absurd h (by simp [listMin])
  | cons x xs =>
    simp only [listMin, Option.some.injEq] at h
    rw [← h]
    exact foldl_min_mem xs x

theorem listMax_mem {l : List ℤ} {m : ℤ} (h : listMax l = some m) : m ∈ l := by
  cases l with
  | nil => exact absurd h (by simp [listMax])
  | cons x xs =>
    simp only [listMax, Option.some.injEq] at h
    rw [← h]
    exact foldl_max_mem xs x

/-! ### Index translation between the original and merged column layouts -/

theorem mem_eraseIdx_of_indexOf_ne {α : Type} [DecidableEq α] {l : List α} {a : α} {i : Nat}
    (ha : a ∈ l) (hne : l.indexOf a ≠ i) : a ∈ l.eraseIdx i := by
  induction l generalizing i with
  | nil => exact absurd ha (List.not_mem_nil a)
  | cons x xs ih =>
    cases i with
    | zero =>
      rcases List.mem_cons.mp ha with rfl | hmem
      · exact absurd (List.indexOf_cons_self a xs) hne
      · exact hmem
    | succ n =>
      by_cases hx : x = a
      · subst hx
        exact List.mem_cons_self x _
      · rcases List.mem_cons.mp ha with rfl | hmem
        · exact absurd rfl hx
        · have hne' : xs.indexOf a ≠ n := by
            intro h
            apply hne
            rw [List.indexOf_cons_ne xs hx, h]
          exact List.mem_cons_of_mem x (ih hmem hne')

theorem getD_eraseIdx_indexOf : ∀ (cols : List String) (r : List Value) (i : Nat) (c : String),
    r.length = cols.length → c ∈ cols → cols.indexOf c ≠ i →
    (r.eraseIdx i).getD ((cols.eraseIdx i).indexOf c) Value.null =
      r.getD (cols.indexOf c) Value.null := by
  intro cols
  induction cols with
  | nil => intro r i c _ hc; exact absurd hc (List.not_mem_nil c)
  | cons c0 cs ih =>
    intro r i c hlen hc hne
    cases r with
    | nil => simp at hlen
    | cons v vs =>
      cases i with
      | zero =>
        have hc0 : c0 ≠ c := by
          intro h
          exact hne (List.indexOf_cons_eq cs h)
        rw [List.indexOf_cons_ne cs hc0]
        simp only [List.eraseIdx]
        rfl
      | succ n =>
        by_cases hc0 : c0 = c
        · rw [List.indexOf_cons_eq cs hc0]
          simp only [List.eraseIdx]
          rw [List.indexOf_cons_eq (cs.eraseIdx n) hc0]
          rfl
        · rw [List.indexOf_cons_ne cs hc0]
          simp only [List.eraseIdx]
          rw [List.indexOf_cons_ne (cs.eraseIdx n) hc0]
          have hlen' : vs.length = cs.length := by simpa using hlen
          have hmem : c ∈ cs := by
            rcases List.mem_cons.mp hc with rfl | h
            · exact absurd rfl hc0
            · exact h
          have hne' : cs.indexOf c ≠ n := by
            intro h
            exact hne (by rw [List.indexOf_cons_ne cs hc0, h])
          have := ih vs n c hlen' hmem hne'
          simpa using this

theorem indexOf_cols_getElem {cols : List String} {c dateCol : String}
    (hd : dateCol ∈ cols) (hc : c ∈ cols) (hne : c ≠ dateCol) :
    cols.indexOf c ≠ cols.indexOf dateCol :=
  indexOf_ne_indexOf hd hne

/-! ### Properties of `setKeyVals` -/

theorem setKeyVals_length (mCols : List String) :
    ∀ (kcs : List String) (k row : List Value), (setKeyVals mCols kcs k row).length = row.length := by
  intro kcs
  induction kcs with
  | nil => intro k row; rfl
  | cons c cs ih =>
    intro k row
    cases k with
    | nil => rfl
    | cons v vs =>
      rw [setKeyVals, ih vs _, length_set_eq]

theorem setKeyVals_getD_untouched (mCols : List String) :
    ∀ (kcs : List String) (k row : List Value) (i : Nat) (d : Value),
    (∀ c' ∈ kcs, mCols.indexOf c' ≠ i) →
    (setKeyVals mCols kcs k row).getD i d = row.getD i d := by
  intro kcs
  induction kcs with
  | nil => intro k row i d _; rfl
  | cons c cs ih =>
    intro k row i d h
    cases k with
    | nil => rfl
    | cons v vs =>
      rw [setKeyVals, ih vs _ i d (fun c' hc' => h c' (List.mem_cons_of_mem c hc'))]
      exact getD_set_ne _ _ _ _ _ (h c (List.mem_cons_self c cs))

theorem setKeyVals_key (mCols : List String) :
    ∀ (kcs : List String) (k row : List Value),
    kcs.Nodup → (∀ c' ∈ kcs, c' ∈ mCols) → row.length = mCols.length →
    k.length = kcs.length →
    groupKeyR mCols kcs (setKeyVals mCols kcs k row) = k := by
  intro kcs
  induction kcs with
  | nil =>
    intro k row _ _ _ hk
    rw [List.length_eq_zero.mp hk]
    rfl
  | cons c cs ih =>
    intro k row hnodup hsub hlen hk
    cases k with
    | nil => simp at hk
    | cons v vs =>
      have hcm : c ∈ mCols := hsub c (List.mem_cons_self c cs)
      have hncs : c ∉ cs := (List.nodup_cons.mp hnodup).1
      rw [setKeyVals]
      show cell mCols (setKeyVals mCols cs vs (row.set (mCols.indexOf c) v)) c ::
        groupKeyR mCols cs (setKeyVals mCols cs vs (row.set (mCols.indexOf c) v)) = v :: vs
      have hhead : cell mCols (setKeyVals mCols cs vs (row.set (mCols.indexOf c) v)) c = v := by
        unfold cell
        rw [setKeyVals_getD_untouched mCols cs vs _ _ _
          (fun c' hc' => indexOf_ne_indexOf hcm (fun h => hncs (h ▸ hc')))]
        apply getD_set_self
        rw [hlen]
        exact List.indexOf_lt_length.2 hcm
      have htail : groupKeyR mCols cs (setKeyVals mCols cs vs (row.set (mCols.indexOf c) v))
          = vs := by
        apply ih vs _ (List.nodup_cons.mp hnodup).2
          (fun c' hc' => hsub c' (List.mem_cons_of_mem c hc'))
          (by rw [length_set_eq]; exact hlen)
          (by simpa using hk)
      rw [hhead, htail]

theorem setKeyVals_self (mCols : List String) :
    ∀ (kcs : List String) (k row : List Value),
    (∀ p ∈ kcs.zip k, row.getD (mCols.indexOf p.1) Value.null = p.2) →
    setKeyVals mCols kcs k row = row := by
  intro kcs
  induction kcs with
  | nil => intro k row _; rfl
  | cons c cs ih =>
    intro k row h
    cases k with
    | nil => rfl
    | cons v vs =>
      rw [setKeyVals]
      rw [set_getD_self _ _ _ _ (h (c, v) (by simp [List.zip_cons_cons]))]
      exact ih vs row (fun p hp => h p (by simp [List.zip_cons_cons, hp]))

theorem zip_map_snd {α β : Type} : ∀ (l : List α) (f : α → β) (p : α × β),
    p ∈ l.zip (l.map f) → p.2 = f p.1 := by
  intro l
  induction l with
  | nil => intro f p hp; exact absurd hp (List.not_mem_nil p)
  | cons x xs ih =>
    intro f p hp
    rw [List.map_cons, List.zip_cons_cons] at hp
    rcases List.mem_cons.mp hp with rfl | hmem
    · rfl
    · exact ih f p hmem

/-! ### Membership lemmas for the regularizer pipeline -/

theorem mem_fillRetained {t : Table} {dateCol : String} {kcs : List String} {r : List Value} :
    r ∈ fillRetained t dateCol kcs ↔
      (∃ r0 ∈ t.rows, r = coerceRow (t.cols.indexOf dateCol) r0) ∧
        Value.null ∉ groupKeyR t.cols kcs r := by
  unfold fillRetained
  rw [List.mem_filter]
  simp only [List.mem_map, decide_eq_true_eq]
  constructor
  · rintro ⟨⟨r0, h0, rfl⟩, h2⟩
    exact ⟨⟨r0, h0, rfl⟩, h2⟩
  · rintro ⟨⟨r0, h0, rfl⟩, h2⟩
    exact ⟨⟨r0, h0, rfl⟩, h2⟩

theorem mem_fillKeys {t : Table} {dateCol : String} {kcs : List String} {k : List Value} :
    k ∈ fillKeys t dateCol kcs ↔
      ∃ r ∈ fillRetained t dateCol kcs, groupKeyR t.cols kcs r = k := by
  unfold fillKeys
  rw [List.mem_dedup, List.mem_map]

theorem fillKeys_nodup (t : Table) (dateCol : String) (kcs : List String) :
    (fillKeys t dateCol kcs).Nodup := List.nodup_dedup _

theorem fillKeys_valid {t : Table} {dateCol : String} {kcs : List String} {k : List Value}
    (hk : k ∈ fillKeys t dateCol kcs) : Value.null ∉ k := by
  rcases mem_fillKeys.mp hk with ⟨r, hr, rfl⟩
  exact (mem_fillRetained.mp hr).2

theorem mem_groupOf {cols kcs : List String} {retained : List (List Value)} {k : List Value}
    {r : List Value} :
    r ∈ groupOf cols kcs retained k ↔ r ∈ retained ∧ groupKeyR cols kcs r = k := by
  unfold groupOf
  rw [List.mem_filter]
  simp

theorem mem_matchRows {dIdx : Nat} {grp : List (List Value)} {d : ℤ} {r : List Value} :
    r ∈ matchRows dIdx grp d ↔ r ∈ grp ∧ r.getD dIdx Value.null = Value.date d := by
  unfold matchRows
  rw [List.mem_filter]
  simp

theorem mem_mergeOne {ncols dIdx : Nat} {grp : List (List Value)} {d : ℤ} {row : List Value}
    (h : row ∈ mergeOne ncols dIdx grp d) :
    (∃ r ∈ matchRows dIdx grp d, row = Value.date d :: r.eraseIdx dIdx) ∨
      (matchRows dIdx grp d = [] ∧
        row = Value.date d :: List.replicate (ncols - 1) Value.null) := by
  unfold mergeOne at h
  split at h
  next hempty =>
    right
    exact ⟨List.isEmpty_iff.mp hempty, by simpa using h⟩
  next hempty =>
    left
    rcases List.mem_map.mp h with ⟨r, hr, rfl⟩
    exact ⟨r, hr, rfl⟩

theorem mergeOne_head {ncols dIdx : Nat} {grp : List (List Value)} {d : ℤ} {row : List Value}
    (h : row ∈ mergeOne ncols dIdx grp d) : row.getD 0 Value.null = Value.date d := by
  rcases mem_mergeOne h with ⟨r, _, rfl⟩ | ⟨_, rfl⟩ <;> rfl

theorem mergeOne_ne_nil (ncols dIdx : Nat) (grp : List (List Value)) (d : ℤ) :
    mergeOne ncols dIdx grp d ≠ [] := by
  unfold mergeOne
  split
  · simp
  next hempty =>
    intro h
    rw [List.map_eq_nil_iff] at h
    rw [h] at hempty
    simp at hempty

theorem mergeOne_length {ncols dIdx : Nat} {grp : List (List Value)} {d : ℤ} {row : List Value}
    (hg : ∀ r ∈ grp, r.length = ncols) (hd : dIdx < ncols) (h : row ∈ mergeOne ncols dIdx grp d) :
    row.length = ncols := by
  rcases mem_mergeOne h with ⟨r, hr, rfl⟩ | ⟨_, rfl⟩
  · have hrg : r ∈ grp := (mem_matchRows.mp hr).1
    have hrl : r.length = ncols := hg r hrg
    have he : (r.eraseIdx dIdx).length = r.length - 1 :=
      List.length_eraseIdx_of_lt (by rw [hrl]; exact hd)
    simp only [List.length_cons, he, hrl]
    omega
  · simp only [List.length_cons, List.length_replicate]
    omega

theorem mem_mergeGroup {ncols dIdx : Nat} {grp : List (List Value)} {lo hi : ℤ}
    {row : List Value} :
    row ∈ mergeGroup ncols dIdx grp lo hi ↔
      ∃ d ∈ dateRange lo hi, row ∈ mergeOne ncols dIdx grp d := by
  unfold mergeGroup
  rw [List.mem_flatMap]

theorem validDatesOf_cons_none {dIdx : Nat} {r : List Value} {rs : List (List Value)}
    (hv : dateVal (r.getD dIdx Value.null) = none) :
    validDatesOf dIdx (r :: rs) = validDatesOf dIdx rs := by
  unfold validDatesOf
  simp only [List.filterMap_cons]
  rw [hv]

theorem validDatesOf_cons_some {dIdx : Nat} {r : List Value} {rs : List (List Value)} {d0 : ℤ}
    (hv : dateVal (r.getD dIdx Value.null) = some d0) :
    validDatesOf dIdx (r :: rs) = d0 :: validDatesOf dIdx rs := by
  unfold validDatesOf
  simp only [List.filterMap_cons]
  rw [hv]

theorem matchRows_cons_pos {dIdx : Nat} {r : List Value} {rs : List (List Value)} {d : ℤ}
    (h : r.getD dIdx Value.null = Value.date d) :
    matchRows dIdx (r :: rs) d = r :: matchRows dIdx rs d := by
  unfold matchRows
  rw [List.filter_cons_of_pos (by simpa using h)]

theorem matchRows_cons_neg {dIdx : Nat} {r : List Value} {rs : List (List Value)} {d : ℤ}
    (h : ¬ (r.getD dIdx Value.null = Value.date d)) :
    matchRows dIdx (r :: rs) d = matchRows dIdx rs d := by
  unfold matchRows
  rw [List.filter_cons_of_neg (by simpa using h)]

theorem validDatesOf_count {dIdx : Nat} : ∀ (grp : List (List Value)) (d : ℤ),
    (validDatesOf dIdx grp).count d = (matchRows dIdx grp d).length := by
  intro grp d
  induction grp with
  | nil => rfl
  | cons r rs ih =>
    rcases hv : dateVal (r.getD dIdx Value.null) with _ | d0
    · have hne : ¬ (r.getD dIdx Value.null = Value.date d) := by
        intro h
        rw [h] at hv
        exact Option.noConfusion hv
      rw [validDatesOf_cons_none hv, matchRows_cons_neg hne]
      exact ih
    · have hdate : r.getD dIdx Value.null = Value.date d0 := by
        rcases hx : r.getD dIdx Value.null with s | q | dd | _ <;> rw [hx] at hv <;>
          simp [dateVal] at hv
        rw [hv]
      by_cases hdd : d0 = d
      · subst hdd
        rw [validDatesOf_cons_some hv, matchRows_cons_pos hdate]
        rw [List.count_cons_self, List.length_cons, ih]
      · have hne : ¬ (r.getD dIdx Value.null = Value.date d) := by
          intro h
          rw [hdate] at h
          exact hdd (Value.date.inj h)
        rw [validDatesOf_cons_some hv, matchRows_cons_neg hne]
        rw [List.count_cons_of_ne (fun h => hdd h.symm), ih]

/-! ### Per-group and concatenation lemmas for the regularizer -/

theorem processGroup_ok {cols : List String} {dIdx : Nat} {kcs mCols : List String}
    {retained : List (List Value)} {k : List Value} {b : List (List Value)}
    (h : processGroup cols dIdx kcs mCols retained k = .ok b) :
    ∃ lo hi, listMin (validDatesOf dIdx (groupOf cols kcs retained k)) = some lo ∧
      listMax (validDatesOf dIdx (groupOf cols kcs retained k)) = some hi ∧
      b = (mergeGroup cols.length dIdx (groupOf cols kcs retained k) lo hi).map
        (setKeyVals mCols kcs k) := by
  unfold processGroup at h
  split at h
  next lo hi heq1 heq2 => exact ⟨lo, hi, heq1, heq2, (Except.ok.inj h).symm⟩
  next => exact Except.noConfusion h

theorem concatGroups_ok_forall {cols : List String} {dIdx : Nat} {kcs mCols : List String}
    {retained : List (List Value)} :
    ∀ {ks : List (List Value)} {out : List (List Value)},
    concatGroups cols dIdx kcs mCols retained ks = .ok out →
    ∀ k ∈ ks, ∃ b, processGroup cols dIdx kcs mCols retained k = .ok b ∧ ∀ x ∈ b, x ∈ out := by
  intro ks
  induction ks with
  | nil => intro out _ k hk; exact absurd hk (List.not_mem_nil k)
  | cons k0 ks' ih =>
    intro out h k hk
    unfold concatGroups at h
    split at h
    next e heq => exact Except.noConfusion h
    next b heq =>
      split at h
      next e heq2 => exact Except.noConfusion h
      next bs heq2 =>
        have hout : b ++ bs = out := Except.ok.inj h
        rcases List.mem_cons.mp hk with rfl | hmem
        · exact ⟨b, heq, fun x hx => hout ▸ List.mem_append_left bs hx⟩
        · rcases ih heq2 k hmem with ⟨b', heq', hsub⟩
          exact ⟨b', heq', fun x hx => hout ▸ List.mem_append_right b (hsub x hx)⟩

theorem concatGroups_ok_mem {cols : List String} {dIdx : Nat} {kcs mCols : List String}
    {retained : List (List Value)} :
    ∀ {ks : List (List Value)} {out : List (List Value)},
    concatGroups cols dIdx kcs mCols retained ks = .ok out →
    ∀ x ∈ out, ∃ k ∈ ks, ∃ b, processGroup cols dIdx kcs mCols retained k = .ok b ∧ x ∈ b := by
  intro ks
  induction ks with
  | nil =>
    intro out h x hx
    unfold concatGroups at h
    have : ([] : List (List Value)) = out := Except.ok.inj h
    rw [← this] at hx
    exact absurd hx (List.not_mem_nil x)
  | cons k0 ks' ih =>
    intro out h x hx
    unfold concatGroups at h
    split at h
    next e heq => exact Except.noConfusion h
    next b heq =>
      split at h
      next e heq2 => exact Except.noConfusion h
      next bs heq2 =>
        have hout : b ++ bs = out := Except.ok.inj h
        rw [← hout] at hx
        rcases List.mem_append.mp hx with hxb | hxbs
        · exact ⟨k0, List.mem_cons_self k0 ks', b, heq, hxb⟩
        · rcases ih heq2 x hxbs with ⟨k, hkm, b', heq', hxb'⟩
          exact ⟨k, List.mem_cons_of_mem k0 hkm, b', heq', hxb'⟩

theorem concatGroups_ok_blocks {cols : List String} {dIdx : Nat} {kcs mCols : List String}
    {retained : List (List Value)} :
    ∀ {ks : List (List Value)} {out : List (List Value)},
    concatGroups cols dIdx kcs mCols retained ks = .ok out →
    ∃ bs : List (List (List Value)), out = bs.flatten ∧ bs.length = ks.length ∧
      ∀ i, i < ks.length →
        processGroup cols dIdx kcs mCols retained (ks.getD i []) = .ok (bs.getD i []) := by
  intro ks
  induction ks with
  | nil =>
    intro out h
    have : ([] : List (List Value)) = out := Except.ok.inj h
    exact ⟨[], by rw [← this]; rfl, rfl, fun i hi => absurd hi (by simp)⟩
  | cons k0 ks' ih =>
    intro out h
    unfold concatGroups at h
    split at h
    next e heq => exact Except.noConfusion h
    next b heq =>
      split at h
      next e heq2 => exact Except.noConfusion h
      next bs heq2 =>
        have hout : b ++ bs = out := Except.ok.inj h
        rcases ih heq2 with ⟨bl, rfl, hlen, hblocks⟩
        refine ⟨b :: bl, by rw [← hout]; rfl, by simp [hlen], ?_⟩
        intro i hi
        cases i with
        | zero => exact heq
        | succ n => exact hblocks n (by simpa using hi)

theorem fill_ok_elim {t : Table} {date_col : String} {gb : GroupCols} {t' : Table}
    (hok : fill_missing_dates_in_df_of_every_country t date_col gb = .ok t') :
    date_col ∈ t.cols ∧ (gb.keyCols ≠ [] ∧ ∀ c ∈ gb.keyCols, c ∈ t.cols) ∧
      t'.cols = date_col :: t.cols.eraseIdx (t.cols.indexOf date_col) ∧
      concatGroups t.cols (t.cols.indexOf date_col) gb.keyCols
        (date_col :: t.cols.eraseIdx (t.cols.indexOf date_col))
        (fillRetained t date_col gb.keyCols) (fillKeys t date_col gb.keyCols) = .ok t'.rows := by
  unfold fill_missing_dates_in_df_of_every_country at hok
  split at hok
  next hdc =>
    split at hok
    next hg =>
      split at hok
      next hkeys => exact Except.noConfusion hok
      next hkeys =>
        split at hok
        next e heq => exact Except.noConfusion hok
        next out heq =>
          have hinj := Except.ok.inj hok
          refine ⟨hdc, hg, ?_, ?_⟩
          · rw [← hinj]
          · rw [← hinj]
            exact heq
    next hg => exact Except.noConfusion hok
  next hdc => exact Except.noConfusion hok

theorem fill_mCols_length {cols : List String} {date_col : String} (hdc : date_col ∈ cols) :
    (date_col :: cols.eraseIdx (cols.indexOf date_col)).length = cols.length := by
  have h1 : cols.indexOf date_col < cols.length := List.indexOf_lt_length.2 hdc
  have h2 : (cols.eraseIdx (cols.indexOf date_col)).length = cols.length - 1 :=
    List.length_eraseIdx_of_lt h1
  simp only [List.length_cons, h2]
  omega

theorem fill_key_mem_mCols {cols : List String} {date_col c' : String}
    (hdc : date_col ∈ cols) (hc' : c' ∈ cols) (hne : c' ≠ date_col) :
    c' ∈ date_col :: cols.eraseIdx (cols.indexOf date_col) := by
  apply List.mem_cons_of_mem
  apply mem_eraseIdx_of_indexOf_ne hc'
  exact indexOf_ne_indexOf hdc hne

theorem groupOf_row_length {t : Table} {date_col : String} {kcs : List String}
    {k : List Value} (hrect : t.Rect) :
    ∀ r ∈ groupOf t.cols kcs (fillRetained t date_col kcs) k, r.length = t.cols.length := by
  intro r hr
  have hret := (mem_groupOf.mp hr).1
  rcases (mem_fillRetained.mp hret).1 with ⟨r0, h0, rfl⟩
  unfold coerceRow
  rw [length_set_eq]
  exact hrect r0 h0

theorem processGroup_key {cols : List String} {dIdx : Nat} {kcs mCols : List String}
    {retained : List (List Value)} {k : List Value} {b : List (List Value)}
    (hp : processGroup cols dIdx kcs mCols retained k = .ok b)
    (hnodup : kcs.Nodup) (hsub : ∀ c' ∈ kcs, c' ∈ mCols)
    (hklen : k.length = kcs.length)
    (hlen : ∀ r ∈ groupOf cols kcs retained k, r.length = cols.length)
    (hd : dIdx < cols.length) (hmlen : mCols.length = cols.length) :
    ∀ x ∈ b, groupKeyR mCols kcs x = k := by
  rcases processGroup_ok hp with ⟨lo, hi, _, _, rfl⟩
  intro x hx
  rcases List.mem_map.mp hx with ⟨row, hrow, rfl⟩
  apply setKeyVals_key mCols kcs k row hnodup hsub _ hklen
  rcases mem_mergeGroup.mp hrow with ⟨d, _, hone⟩
  rw [mergeOne_length hlen hd hone, hmlen]

/-- Claim C8: the output of the date-axis regularizer is a concatenation of
per-group blocks, one block per group key, and every row of a block —
including the null placeholder rows created for missing calendar days —
carries group-key values identical to the key of the group it was generated
for; `GroupCols` covers both single-column and composite keys. -/
theorem fill_key_preservation {t : Table} {date_col : String} {gb : GroupCols} {t' : Table}
    (hrect : t.Rect) (hnodupk : gb.keyCols.Nodup) (hdk : date_col ∉ gb.keyCols)
    (hok : fill_missing_dates_in_df_of_every_country t date_col gb = .ok t') :
    ∃ bs : List (List (List Value)),
      t'.rows = bs.flatten ∧
      bs.length = (fillKeys t date_col gb.keyCols).length ∧
      ∀ i, i < bs.length →
        ∀ r ∈ bs.getD i [], groupKeyR t'.cols gb.keyCols r =
          (fillKeys t date_col gb.keyCols).getD i [] := by
  rcases fill_ok_elim hok with ⟨hdc, ⟨hgne, hgsub⟩, hcols, hconcat⟩
  rcases concatGroups_ok_blocks hconcat with ⟨bs, hflat, hlen, hblocks⟩
  refine ⟨bs, hflat, by rw [hlen], ?_⟩
  intro i hi r hr
  rw [hlen] at hi
  have hk : (fillKeys t date_col gb.keyCols).getD i [] ∈ fillKeys t date_col gb.keyCols :=
    getD_mem_of_lt [] hi
  have hklen : ((fillKeys t date_col gb.keyCols).getD i []).length = gb.keyCols.length := by
    rcases mem_fillKeys.mp hk with ⟨r0, _, hk0⟩
    rw [← hk0]
    unfold groupKeyR
    rw [List.length_map]
  rw [hcols]
  exact processGroup_key (hblocks i hi) hnodupk
    (fun c' hc' => fill_key_mem_mCols hdc (hgsub c' hc')
      (fun he => hdk (he ▸ hc')))
    hklen (groupOf_row_length hrect) (List.indexOf_lt_length.2 hdc)
    (fill_mCols_length hdc) r hr

/-- Claim C2 (amended): a row whose date value parses and whose group key
is fully non-null is never dropped by the regularizer: its merged form (the
parsed date moved to the front, other fields unchanged) appears in the
output. (Rows whose date fails to parse are dropped by the left join; see
the counterexample.) -/
theorem fill_keeps_parseable_rows {t : Table} {date_col : String} {gb : GroupCols} {t' : Table}
    (hrect : t.Rect) (hdk : date_col ∉ gb.keyCols)
    (hok : fill_missing_dates_in_df_of_every_country t date_col gb = .ok t') :
    ∀ r ∈ t.rows, ∀ d : ℤ,
      to_datetime (r.getD (t.cols.indexOf date_col) Value.null) = Value.date d →
      Value.null ∉ groupKeyR t.cols gb.keyCols r →
      (Value.date d :: r.eraseIdx (t.cols.indexOf date_col)) ∈ t'.rows := by
  rcases fill_ok_elim hok with ⟨hdc, ⟨hgne, hgsub⟩, hcols, hconcat⟩
  intro r hr d hdate hvalid
  have hdIdx : t.cols.indexOf date_col < t.cols.length := List.indexOf_lt_length.2 hdc
  have hrlen : r.length = t.cols.length := hrect r hr
  have hkey : groupKeyR t.cols gb.keyCols (coerceRow (t.cols.indexOf date_col) r) =
      groupKeyR t.cols gb.keyCols r := by
    apply List.map_congr_left
    intro c' hc'
    unfold coerceRow cell
    apply getD_set_ne
    exact (indexOf_ne_indexOf hdc (fun he => hdk (he ▸ hc'))).symm
  have hret : coerceRow (t.cols.indexOf date_col) r ∈ fillRetained t date_col gb.keyCols :=
    mem_fillRetained.mpr ⟨⟨r, hr, rfl⟩, by rw [hkey]; exact hvalid⟩
  have hkmem : groupKeyR t.cols gb.keyCols (coerceRow (t.cols.indexOf date_col) r) ∈
      fillKeys t date_col gb.keyCols := mem_fillKeys.mpr ⟨_, hret, rfl⟩
  rcases concatGroups_ok_forall hconcat _ hkmem with ⟨b, hpk, hsub⟩
  rcases processGroup_ok hpk with ⟨lo, hi, hmin, hmax, rfl⟩
  have hrgrp : coerceRow (t.cols.indexOf date_col) r ∈
      groupOf t.cols gb.keyCols (fillRetained t date_col gb.keyCols)
        (groupKeyR t.cols gb.keyCols (coerceRow (t.cols.indexOf date_col) r)) :=
    mem_groupOf.mpr ⟨hret, rfl⟩
  have hr'date : (coerceRow (t.cols.indexOf date_col) r).getD (t.cols.indexOf date_col)
      Value.null = Value.date d := by
    unfold coerceRow
    rw [getD_set_self _ _ _ _ (by rw [hrlen]; exact hdIdx)]
    exact hdate
  have hdmem : d ∈ validDatesOf (t.cols.indexOf date_col)
      (groupOf t.cols gb.keyCols (fillRetained t date_col gb.keyCols)
        (groupKeyR t.cols gb.keyCols (coerceRow (t.cols.indexOf date_col) r))) := by
    unfold validDatesOf
    apply List.mem_filterMap.mpr
    exact ⟨_, hrgrp, by rw [hr'date]; rfl⟩
  have hdrange : d ∈ dateRange lo hi :=
    mem_dateRange.mpr ⟨listMin_le hmin d hdmem, le_listMax hmax d hdmem⟩
  have hmatch : coerceRow (t.cols.indexOf date_col) r ∈
      matchRows (t.cols.indexOf date_col)
        (groupOf t.cols gb.keyCols (fillRetained t date_col gb.keyCols)
          (groupKeyR t.cols gb.keyCols (coerceRow (t.cols.indexOf date_col) r))) d :=
    mem_matchRows.mpr ⟨hrgrp, hr'date⟩
  have hmerged : (Value.date d :: r.eraseIdx (t.cols.indexOf date_col)) ∈
      mergeOne t.cols.length (t.cols.indexOf date_col)
        (groupOf t.cols gb.keyCols (fillRetained t date_col gb.keyCols)
          (groupKeyR t.cols gb.keyCols (coerceRow (t.cols.indexOf date_col) r))) d := by
    unfold mergeOne
    rw [if_neg (fun he => (List.ne_nil_of_mem hmatch) (List.isEmpty_iff.mp he))]
    apply List.mem_map.mpr
    refine ⟨coerceRow (t.cols.indexOf date_col) r, hmatch, ?_⟩
    unfold coerceRow
    rw [eraseIdx_set_same]
  have hmergegrp : (Value.date d :: r.eraseIdx (t.cols.indexOf date_col)) ∈
      mergeGroup t.cols.length (t.cols.indexOf date_col)
        (groupOf t.cols gb.keyCols (fillRetained t date_col gb.keyCols)
          (groupKeyR t.cols gb.keyCols (coerceRow (t.cols.indexOf date_col) r))) lo hi :=
    mem_mergeGroup.mpr ⟨d, hdrange, hmerged⟩
  have hstamp : setKeyVals (date_col :: t.cols.eraseIdx (t.cols.indexOf date_col))
      gb.keyCols (groupKeyR t.cols gb.keyCols (coerceRow (t.cols.indexOf date_col) r))
      (Value.date d :: r.eraseIdx (t.cols.indexOf date_col)) =
      Value.date d :: r.eraseIdx (t.cols.indexOf date_col) := by
    apply setKeyVals_self
    intro p hp
    have hsnd := zip_map_snd gb.keyCols (cell t.cols (coerceRow (t.cols.indexOf date_col) r)) p hp
    have hfst : p.1 ∈ gb.keyCols := List.of_mem_zip hp |>.1
    have hne : p.1 ≠ date_col := fun he => hdk (he ▸ hfst)
    have hcellr : cell t.cols (coerceRow (t.cols.indexOf date_col) r) p.1 =
        cell t.cols r p.1 := by
      unfold coerceRow cell
      apply getD_set_ne
      exact (indexOf_ne_indexOf hdc hne).symm
    rw [hsnd, hcellr]
    rw [List.indexOf_cons_ne _ (fun he => hne he.symm)]
    show (r.eraseIdx (t.cols.indexOf date_col)).getD
      ((t.cols.eraseIdx (t.cols.indexOf date_col)).indexOf p.1) Value.null = cell t.cols r p.1
    exact getD_eraseIdx_indexOf t.cols r (t.cols.indexOf date_col) p.1 hrlen
      (hgsub p.1 hfst) (indexOf_ne_indexOf hdc hne)
  have hfinal := hsub _ (List.mem_map.mpr ⟨_, hmergegrp, hstamp⟩)
  exact hfinal

theorem concatGroups_filter {cols : List String} {dIdx : Nat} {kcs mCols : List String}
    {retained : List (List Value)} :
    ∀ {ks out : List (List Value)},
    concatGroups cols dIdx kcs mCols retained ks = .ok out →
    ks.Nodup →
    (∀ k' ∈ ks, ∀ b', processGroup cols dIdx kcs mCols retained k' = .ok b' →
      ∀ x ∈ b', groupKeyR mCols kcs x = k') →
    ∀ k ∈ ks, ∀ b, processGroup cols dIdx kcs mCols retained k = .ok b →
      out.filter (fun r => decide (groupKeyR mCols kcs r = k)) = b := by
  intro ks
  induction ks with
  | nil => intro out _ _ _ k hk; exact absurd hk (List.not_mem_nil k)
  | cons k0 ks' ih =>
    intro out h hnodup hkeyrow k hk b hb
    unfold concatGroups at h
    split at h
    next e heq => exact Except.noConfusion h
    next b0 heq =>
      split at h
      next e heq2 => exact Except.noConfusion h
      next bs heq2 =>
        have hout : b0 ++ bs = out := Except.ok.inj h
        rw [← hout, List.filter_append]
        have hk0ns : k0 ∉ ks' := (List.nodup_cons.mp hnodup).1
        rcases List.mem_cons.mp hk with rfl | hmem
        · have hb0 : b0 = b := Except.ok.inj (heq.symm.trans hb)
          subst hb0
          have h1 : b0.filter (fun r => decide (groupKeyR mCols kcs r = k)) = b0 := by
            apply List.filter_eq_self.mpr
            intro x hx
            simpa using hkeyrow k (List.mem_cons_self k ks') b0 heq x hx
          have h2 : bs.filter (fun r => decide (groupKeyR mCols kcs r = k)) = [] := by
            apply List.filter_eq_nil_iff.mpr
            intro x hx
            rcases concatGroups_ok_mem heq2 x hx with ⟨k', hk'm, b', hb', hxb'⟩
            have := hkeyrow k' (List.mem_cons_of_mem _ hk'm) b' hb' x hxb'
            simp only [decide_eq_true_eq]
            rw [this]
            intro he
            exact hk0ns (he ▸ hk'm)
          rw [h1, h2, List.append_nil]
        · have h1 : b0.filter (fun r => decide (groupKeyR mCols kcs r = k)) = [] := by
            apply List.filter_eq_nil_iff.mpr
            intro x hx
            have := hkeyrow k0 (List.mem_cons_self k0 ks') b0 heq x hx
            simp only [decide_eq_true_eq]
            rw [this]
            intro he
            exact hk0ns (he ▸ hmem)
          rw [h1, List.nil_append]
          exact ih heq2 (List.nodup_cons.mp hnodup).2
            (fun k' h1' b' h2' => hkeyrow k' (List.mem_cons_of_mem k0 h1') b' h2')
            k hmem b hb

theorem block_row_date {mTail : List String} {date_col : String} {kcs : List String}
    {k : List Value} (hkd : ∀ c' ∈ kcs, c' ≠ date_col) {ncols dIdx : Nat}
    {grp : List (List Value)} {d : ℤ} {row : List Value}
    (hrow : row ∈ mergeOne ncols dIdx grp d) :
    cell (date_col :: mTail) (setKeyVals (date_col :: mTail) kcs k row) date_col =
      Value.date d := by
  unfold cell
  rw [List.indexOf_cons_self]
  rw [setKeyVals_getD_untouched _ kcs k row 0 _ (fun c' hc' => by
    rw [List.indexOf_cons_ne _ (fun he => (hkd c' hc') he.symm)]
    exact Nat.succ_ne_zero _)]
  exact mergeOne_head hrow

theorem mergeOne_length_one {ncols dIdx : Nat} {grp : List (List Value)} {d : ℤ}
    (hc : (matchRows dIdx grp d).length ≤ 1) : (mergeOne ncols dIdx grp d).length = 1 := by
  unfold mergeOne
  split
  · rfl
  next hne =>
    rw [List.length_map]
    have h1 : matchRows dIdx grp d ≠ [] := by
      intro h
      rw [h] at hne
      simp at hne
    have h2 : 0 < (matchRows dIdx grp d).length := List.length_pos.mpr h1
    omega

theorem flatMap_map_dates {g : List Value → Value} {ncols dIdx : Nat} {grp : List (List Value)}
    (hone : ∀ d : ℤ, (mergeOne ncols dIdx grp d).length = 1)
    (hval : ∀ d : ℤ, ∀ row ∈ mergeOne ncols dIdx grp d, g row = Value.date d) :
    ∀ ds : List ℤ, (ds.flatMap (mergeOne ncols dIdx grp)).map g = ds.map Value.date := by
  intro ds
  induction ds with
  | nil => rfl
  | cons d ds' ih =>
    rw [List.flatMap_cons, List.map_append, ih, List.map_cons]
    rcases List.length_eq_one.mp (hone d) with ⟨x, hx⟩
    rw [hx, List.map_cons, List.map_nil]
    rw [hval d x (by rw [hx]; exact List.mem_cons_self x [])]
    rfl

/-- Claim C1 (amended): for every group in the regularizer's output, the
set of dates present is exactly the contiguous daily range
[min observed date, max observed date] over the group's parseable dates —
no gaps, every present value a date — and when the group's parseable input
dates are duplicate-free the output date list is exactly the range, hence
duplicate-free. (Duplicate parseable input dates survive as duplicate
output dates; see the counterexample.) -/
theorem fill_dates_complete {t : Table} {date_col : String} {gb : GroupCols} {t' : Table}
    (hrect : t.Rect) (hnodupk : gb.keyCols.Nodup) (hdk : date_col ∉ gb.keyCols)
    (hok : fill_missing_dates_in_df_of_every_country t date_col gb = .ok t') :
    ∀ k ∈ fillKeys t date_col gb.keyCols, ∀ lo hi : ℤ,
    listMin (validDatesOf (t.cols.indexOf date_col)
      (groupOf t.cols gb.keyCols (fillRetained t date_col gb.keyCols) k)) = some lo →
    listMax (validDatesOf (t.cols.indexOf date_col)
      (groupOf t.cols gb.keyCols (fillRetained t date_col gb.keyCols) k)) = some hi →
    (∀ d : ℤ, Value.date d ∈ outGroupDates t' date_col gb.keyCols k ↔ lo ≤ d ∧ d ≤ hi) ∧
    (∀ v ∈ outGroupDates t' date_col gb.keyCols k, ∃ d : ℤ, v = Value.date d) ∧
    ((validDatesOf (t.cols.indexOf date_col)
        (groupOf t.cols gb.keyCols (fillRetained t date_col gb.keyCols) k)).Nodup →
      outGroupDates t' date_col gb.keyCols k = (dateRange lo hi).map Value.date) := by
  rcases fill_ok_elim hok with ⟨hdc, ⟨hgne, hgsub⟩, hcols, hconcat⟩
  intro k hk lo hi hmin hmax
  have hkd : ∀ c' ∈ gb.keyCols, c' ≠ date_col := fun c' hc' he => hdk (he ▸ hc')
  have hkeyrow : ∀ k' ∈ fillKeys t date_col gb.keyCols, ∀ b',
      processGroup t.cols (t.cols.indexOf date_col) gb.keyCols
        (date_col :: t.cols.eraseIdx (t.cols.indexOf date_col))
        (fillRetained t date_col gb.keyCols) k' = .ok b' →
      ∀ x ∈ b', groupKeyR (date_col :: t.cols.eraseIdx (t.cols.indexOf date_col))
        gb.keyCols x = k' := by
    intro k' hk' b' hb'
    have hklen : k'.length = gb.keyCols.length := by
      rcases mem_fillKeys.mp hk' with ⟨r0, _, hk0⟩
      rw [← hk0]
      unfold groupKeyR
      rw [List.length_map]
    exact processGroup_key hb' hnodupk
      (fun c' hc' => fill_key_mem_mCols hdc (hgsub c' hc') (hkd c' hc'))
      hklen (groupOf_row_length hrect) (List.indexOf_lt_length.2 hdc)
      (fill_mCols_length hdc)
  rcases concatGroups_ok_forall hconcat k hk with ⟨b, hpk, _⟩
  have houtg : outGroup t' gb.keyCols k = b := by
    unfold outGroup
    rw [hcols]
    exact concatGroups_filter hconcat (fillKeys_nodup t date_col gb.keyCols) hkeyrow k hk b hpk
  have hdates : outGroupDates t' date_col gb.keyCols k =
      b.map (fun r => cell (date_col :: t.cols.eraseIdx (t.cols.indexOf date_col)) r date_col) := by
    unfold outGroupDates
    rw [houtg, hcols]
  rcases processGroup_ok hpk with ⟨lo', hi', hmin', hmax', hbeq⟩
  have hlo : lo' = lo := Option.some.inj (hmin'.symm.trans hmin)
  have hhi : hi' = hi := Option.some.inj (hmax'.symm.trans hmax)
  rw [hlo, hhi] at hbeq
  have hcellform : ∀ x ∈ b, ∃ d : ℤ, d ∈ dateRange lo hi ∧
      cell (date_col :: t.cols.eraseIdx (t.cols.indexOf date_col)) x date_col =
        Value.date d := by
    intro x hx
    rw [hbeq] at hx
    rcases List.mem_map.mp hx with ⟨row, hrowm, rfl⟩
    rcases mem_mergeGroup.mp hrowm with ⟨d, hd, hone⟩
    exact ⟨d, hd, block_row_date hkd hone⟩
  have hcellexists : ∀ d ∈ dateRange lo hi, ∃ x ∈ b,
      cell (date_col :: t.cols.eraseIdx (t.cols.indexOf date_col)) x date_col =
        Value.date d := by
    intro d hd
    rcases List.exists_mem_of_ne_nil _ (mergeOne_ne_nil t.cols.length
      (t.cols.indexOf date_col)
      (groupOf t.cols gb.keyCols (fillRetained t date_col gb.keyCols) k) d) with ⟨row, hrow⟩
    refine ⟨setKeyVals (date_col :: t.cols.eraseIdx (t.cols.indexOf date_col))
      gb.keyCols k row, ?_, block_row_date hkd hrow⟩
    rw [hbeq]
    exact List.mem_map.mpr ⟨row, mem_mergeGroup.mpr ⟨d, hd, hrow⟩, rfl⟩
  refine ⟨?_, ?_, ?_⟩
  · intro d
    constructor
    · intro hmem
      rw [hdates] at hmem
      rcases List.mem_map.mp hmem with ⟨x, hx, heq⟩
      rcases hcellform x hx with ⟨d', hd', hcell⟩
      have : d' = d := Value.date.inj (hcell.symm.trans heq)
      rw [← this]
      exact mem_dateRange.mp hd'
    · intro hbound
      rcases hcellexists d (mem_dateRange.mpr hbound) with ⟨x, hx, hcell⟩
      rw [hdates]
      exact List.mem_map.mpr ⟨x, hx, hcell⟩
  · intro v hv
    rw [hdates] at hv
    rcases List.mem_map.mp hv with ⟨x, hx, heq⟩
    rcases hcellform x hx with ⟨d', _, hcell⟩
    exact ⟨d', heq.symm.trans hcell⟩
  · intro hvd
    have hcount : ∀ d : ℤ, (matchRows (t.cols.indexOf date_col)
        (groupOf t.cols gb.keyCols (fillRetained t date_col gb.keyCols) k) d).length ≤ 1 := by
      intro d
      rw [← validDatesOf_count]
      exact List.nodup_iff_count_le_one.mp hvd d
    rw [hdates, hbeq, List.map_map]
    unfold mergeGroup
    exact flatMap_map_dates (fun d => mergeOne_length_one (hcount d))
      (fun d row hrow => block_row_date hkd hrow) (dateRange lo hi)

/-- Claim C3 (code behaviour at the failing input): on an input whose only
group has no parseable date (every date coerced to the sentinel), the
regularizer does not return normally — it raises the `pd.date_range`
ValueError, because `min`/`max` of an all-NaT column are NaT. -/
theorem fill_all_unparseable_group_raises :
    fill_missing_dates_in_df_of_every_country
      ⟨["date", "country"], [[Value.str "oops", Value.str "A"]]⟩ "date"
      (GroupCols.single "country") =
    Except.error "ValueError: Neither start nor end can be NaT" := by
  rfl

/-- Claim C2 (counterexample): the regularizer drops a row whose date fails
to parse: of two input rows for group "A" — one with a parseable date and
one with an unparseable date — only the parseable one survives; the
sentinel-dated row (the one carrying the value 2) is not propagated. -/
theorem fill_drops_unparseable_row_cex :
    fill_missing_dates_in_df_of_every_country
        ⟨["date", "country", "x"],
          [[Value.date 0, Value.str "A", Value.num 1],
           [Value.null, Value.str "A", Value.num 2]]⟩ "date" (GroupCols.single "country") =
      Except.ok ⟨["date", "country", "x"], [[Value.date 0, Value.str "A", Value.num 1]]⟩ ∧
    (∀ r ∈ (⟨["date", "country", "x"],
        [[Value.date 0, Value.str "A", Value.num 1]]⟩ : Table).rows, Value.num 2 ∉ r) := by
  constructor
  · rfl
  · decide

/-- Claim C1 (counterexample): duplicate parseable dates within a group
survive regularization as duplicate output dates: two input rows of group
"A" with the same date yield an output group whose date list has a
duplicate, refuting the unconditional no-duplicates reading. -/
theorem fill_duplicate_dates_cex :
    fill_missing_dates_in_df_of_every_country
        ⟨["date", "country"], [[Value.date 0, Value.str "A"], [Value.date 0, Value.str "A"]]⟩
        "date" (GroupCols.single "country") =
      Except.ok ⟨["date", "country"],
        [[Value.date 0, Value.str "A"], [Value.date 0, Value.str "A"]]⟩ ∧
    ¬ (outGroupDates
        ⟨["date", "country"], [[Value.date 0, Value.str "A"], [Value.date 0, Value.str "A"]]⟩
        "date" ["country"] [Value.str "A"]).Nodup := by
  constructor
  · rfl
  · decide

theorem NumericCol_of_bool {t : Table} {c : String}
    (h : ∀ r ∈ t.rows, isNumOrNull (cell t.cols r c) = true) : NumericCol t c := by
  intro r hr
  have hb := h r hr
  rcases hv : cell t.cols r c with s | q | d | _
  · rw [hv] at hb
    exact absurd hb (by simp [isNumOrNull])
  · exact Or.inr ⟨q, rfl⟩
  · rw [hv] at hb
    exact absurd hb (by simp [isNumOrNull])
  · exact Or.inl rfl

theorem Rect_of_all {t : Table} (h : t.rows.all (fun r => r.length == t.cols.length) = true) :
    t.Rect := by
  intro r hr
  simpa using List.all_eq_true.mp h r hr

/-- Witness for claim C4's theorem at a concrete table. -/
theorem interpolate_no_null_left_witness :
    interpolate_columns
        ⟨["country", "v"], [[Value.str "A", Value.num 1], [Value.str "A", Value.null],
          [Value.str "B", Value.null]]⟩ ["v"] (GroupCols.single "country") =
      Except.ok ⟨["country", "v"], [[Value.str "A", Value.num 1], [Value.str "A", Value.num 1],
        [Value.str "B", Value.null]]⟩ ∧
    (∃ q : ℚ, cellAt ⟨["country", "v"], [[Value.str "A", Value.num 1],
      [Value.str "A", Value.num 1], [Value.str "B", Value.null]]⟩ 1 "v" = Value.num q) ∧
    cellAt ⟨["country", "v"], [[Value.str "A", Value.num 1], [Value.str "A", Value.num 1],
      [Value.str "B", Value.null]]⟩ 2 "v" = Value.null := by
  have hnum : ∀ c ∈ ["v"], c ∈ (⟨["country", "v"], [[Value.str "A", Value.num 1],
      [Value.str "A", Value.null], [Value.str "B", Value.null]]⟩ : Table).cols →
      NumericCol ⟨["country", "v"], [[Value.str "A", Value.num 1], [Value.str "A", Value.null],
        [Value.str "B", Value.null]]⟩ c := by
    intro c hc _
    obtain rfl := List.mem_singleton.mp hc
    exact NumericCol_of_bool (by decide)
  have hok : interpolate_columns
      ⟨["country", "v"], [[Value.str "A", Value.num 1], [Value.str "A", Value.null],
        [Value.str "B", Value.null]]⟩ ["v"] (GroupCols.single "country") =
      Except.ok ⟨["country", "v"], [[Value.str "A", Value.num 1], [Value.str "A", Value.num 1],
        [Value.str "B", Value.null]]⟩ := by rfl
  refine ⟨hok, ?_, ?_⟩
  · exact (@interpolate_no_null_left_in_observed_groups
      ⟨["country", "v"], [[Value.str "A", Value.num 1], [Value.str "A", Value.null],
        [Value.str "B", Value.null]]⟩ ["v"] (GroupCols.single "country")
      ⟨["country", "v"], [[Value.str "A", Value.num 1], [Value.str "A", Value.num 1],
        [Value.str "B", Value.null]]⟩
      (Rect_of_all (by decide)) (by decide) hnum hok "v" (by decide) (by decide)
      [Value.str "A"] (by decide) 1 (by decide)).1 ⟨0, by decide, by decide⟩
  · exact (@interpolate_no_null_left_in_observed_groups
      ⟨["country", "v"], [[Value.str "A", Value.num 1], [Value.str "A", Value.null],
        [Value.str "B", Value.null]]⟩ ["v"] (GroupCols.single "country")
      ⟨["country", "v"], [[Value.str "A", Value.num 1], [Value.str "A", Value.num 1],
        [Value.str "B", Value.null]]⟩
      (Rect_of_all (by decide)) (by decide) hnum hok "v" (by decide) (by decide)
      [Value.str "B"] (by decide) 2 (by decide)).2 (by decide)

/-- Witness for claim C5's theorem: the gap between 10 and 40 is filled
with their midpoint (10 + 40) / 2. -/
theorem interpolate_linear_midpoint_witness :
    ∃ t5 : Table, interpolate_columns
        ⟨["country", "v"], [[Value.str "A", Value.num 10], [Value.str "A", Value.null],
          [Value.str "A", Value.num 40]]⟩ ["v"] (GroupCols.single "country") =
        Except.ok t5 ∧
      cellAt t5
        ((groupPositions (⟨["country", "v"], [[Value.str "A", Value.num 10],
            [Value.str "A", Value.null], [Value.str "A", Value.num 40]]⟩ : Table).cols
          (GroupCols.single "country").keyCols
          (⟨["country", "v"], [[Value.str "A", Value.num 10], [Value.str "A", Value.null],
            [Value.str "A", Value.num 40]]⟩ : Table).rows [Value.str "A"]).getD (0 + 1) 0) "v" =
        Value.num ((10 + 40) / 2) := by
  have hnum : ∀ c ∈ ["v"], c ∈ (⟨["country", "v"], [[Value.str "A", Value.num 10],
      [Value.str "A", Value.null], [Value.str "A", Value.num 40]]⟩ : Table).cols →
      NumericCol ⟨["country", "v"], [[Value.str "A", Value.num 10], [Value.str "A", Value.null],
        [Value.str "A", Value.num 40]]⟩ c := by
    intro c hc _
    obtain rfl := List.mem_singleton.mp hc
    exact NumericCol_of_bool (by decide)
  obtain ⟨t5, hok⟩ : ∃ t5, interpolate_columns
      ⟨["country", "v"], [[Value.str "A", Value.num 10], [Value.str "A", Value.null],
        [Value.str "A", Value.num 40]]⟩ ["v"] (GroupCols.single "country") =
      Except.ok t5 := ⟨_, rfl⟩
  refine ⟨t5, hok, ?_⟩
  exact @interpolate_linear_midpoint
    ⟨["country", "v"], [[Value.str "A", Value.num 10], [Value.str "A", Value.null],
      [Value.str "A", Value.num 40]]⟩ ["v"] (GroupCols.single "country") t5
    (Rect_of_all (by decide)) (by decide) hnum hok "v" (by decide) (by decide)
    [Value.str "A"] (by decide) 0 (by decide) 10 40 (by decide) (by decide) (by decide)

/-- Witness for claim C6's theorem: the leading null before the first
observation 7 is filled with 7. -/
theorem interpolate_boundary_extrapolation_witness :
    interpolate_columns
        ⟨["country", "v"], [[Value.str "A", Value.null], [Value.str "A", Value.num 7]]⟩
        ["v"] (GroupCols.single "country") =
      Except.ok ⟨["country", "v"], [[Value.str "A", Value.num 7],
        [Value.str "A", Value.num 7]]⟩ ∧
    cellAt ⟨["country", "v"], [[Value.str "A", Value.num 7], [Value.str "A", Value.num 7]]⟩
      ((groupPositions (⟨["country", "v"], [[Value.str "A", Value.null],
          [Value.str "A", Value.num 7]]⟩ : Table).cols
        (GroupCols.single "country").keyCols
        (⟨["country", "v"], [[Value.str "A", Value.null],
          [Value.str "A", Value.num 7]]⟩ : Table).rows [Value.str "A"]).getD 0 0) "v" =
      Value.num 7 := by
  have hnum : ∀ c ∈ ["v"], c ∈ (⟨["country", "v"], [[Value.str "A", Value.null],
      [Value.str "A", Value.num 7]]⟩ : Table).cols →
      NumericCol ⟨["country", "v"], [[Value.str "A", Value.null],
        [Value.str "A", Value.num 7]]⟩ c := by
    intro c hc _
    obtain rfl := List.mem_singleton.mp hc
    exact NumericCol_of_bool (by decide)
  have hok : interpolate_columns
      ⟨["country", "v"], [[Value.str "A", Value.null], [Value.str "A", Value.num 7]]⟩
      ["v"] (GroupCols.single "country") =
      Except.ok ⟨["country", "v"], [[Value.str "A", Value.num 7],
        [Value.str "A", Value.num 7]]⟩ := by rfl
  refine ⟨hok, ?_⟩
  exact (@interpolate_boundary_extrapolation
    ⟨["country", "v"], [[Value.str "A", Value.null], [Value.str "A", Value.num 7]]⟩
    ["v"] (GroupCols.single "country")
    ⟨["country", "v"], [[Value.str "A", Value.num 7], [Value.str "A", Value.num 7]]⟩
    (Rect_of_all (by decide)) (by decide) hnum hok "v" (by decide) (by decide)
    [Value.str "A"] (by decide)).1 1 (by decide) 7 (by decide) (by decide) 0 (by decide)

/-- Witness for claim C7's theorem: re-running the interpolator on its own
output returns that output unchanged. -/
theorem interpolate_columns_idempotent_witness :
    interpolate_columns
        ⟨["country", "v"], [[Value.str "A", Value.num 1], [Value.str "A", Value.null],
          [Value.str "B", Value.null]]⟩ ["v"] (GroupCols.single "country") =
      Except.ok ⟨["country", "v"], [[Value.str "A", Value.num 1], [Value.str "A", Value.num 1],
        [Value.str "B", Value.null]]⟩ ∧
    interpolate_columns
        ⟨["country", "v"], [[Value.str "A", Value.num 1], [Value.str "A", Value.num 1],
          [Value.str "B", Value.null]]⟩ ["v"] (GroupCols.single "country") =
      Except.ok ⟨["country", "v"], [[Value.str "A", Value.num 1], [Value.str "A", Value.num 1],
        [Value.str "B", Value.null]]⟩ := by
  have hnum : ∀ c ∈ ["v"], c ∈ (⟨["country", "v"], [[Value.str "A", Value.num 1],
      [Value.str "A", Value.null], [Value.str "B", Value.null]]⟩ : Table).cols →
      NumericCol ⟨["country", "v"], [[Value.str "A", Value.num 1], [Value.str "A", Value.null],
        [Value.str "B", Value.null]]⟩ c := by
    intro c hc _
    obtain rfl := List.mem_singleton.mp hc
    exact NumericCol_of_bool (by decide)
  have hok : interpolate_columns
      ⟨["country", "v"], [[Value.str "A", Value.num 1], [Value.str "A", Value.null],
        [Value.str "B", Value.null]]⟩ ["v"] (GroupCols.single "country") =
      Except.ok ⟨["country", "v"], [[Value.str "A", Value.num 1], [Value.str "A", Value.num 1],
        [Value.str "B", Value.null]]⟩ := by rfl
  exact ⟨hok, @interpolate_columns_idempotent
    ⟨["country", "v"], [[Value.str "A", Value.num 1], [Value.str "A", Value.null],
      [Value.str "B", Value.null]]⟩ ["v"] (GroupCols.single "country")
    ⟨["country", "v"], [[Value.str "A", Value.num 1], [Value.str "A", Value.num 1],
      [Value.str "B", Value.null]]⟩
    (Rect_of_all (by decide)) hnum hok⟩

/-- Witness for claim C9's theorem: the absent name "zzz" is skipped. -/
theorem interpolate_columns_skips_absent_witness :
    ("zzz" ∉ (⟨["country", "v"], [[Value.str "A", Value.num 1]]⟩ : Table).cols) ∧
    (interpolate_columns ⟨["country", "v"], [[Value.str "A", Value.num 1]]⟩
        ("zzz" :: ["v"]) (GroupCols.single "country") =
      interpolate_columns ⟨["country", "v"], [[Value.str "A", Value.num 1]]⟩
        ["v"] (GroupCols.single "country") ∧
      ∀ t', interpolate_columns ⟨["country", "v"], [[Value.str "A", Value.num 1]]⟩
          ("zzz" :: ["v"]) (GroupCols.single "country") = .ok t' →
        t'.cols = (⟨["country", "v"], [[Value.str "A", Value.num 1]]⟩ : Table).cols) :=
  ⟨by decide, @interpolate_columns_skips_absent_column
    ⟨["country", "v"], [[Value.str "A", Value.num 1]]⟩ "zzz" ["v"]
    (GroupCols.single "country") (by decide)⟩

/-- Witness for claim C10's theorem: the unlisted columns "country" and
"w" are untouched while "v" is filled. -/
theorem interpolate_columns_frame_witness :
    interpolate_columns
        ⟨["country", "v", "w"], [[Value.str "A", Value.null, Value.num 5],
          [Value.str "A", Value.num 2, Value.num 6]]⟩ ["v"] (GroupCols.single "country") =
      Except.ok ⟨["country", "v", "w"], [[Value.str "A", Value.num 2, Value.num 5],
        [Value.str "A", Value.num 2, Value.num 6]]⟩ ∧
    ((⟨["country", "v", "w"], [[Value.str "A", Value.num 2, Value.num 5],
        [Value.str "A", Value.num 2, Value.num 6]]⟩ : Table).cols =
      (⟨["country", "v", "w"], [[Value.str "A", Value.null, Value.num 5],
        [Value.str "A", Value.num 2, Value.num 6]]⟩ : Table).cols ∧
    (⟨["country", "v", "w"], [[Value.str "A", Value.num 2, Value.num 5],
        [Value.str "A", Value.num 2, Value.num 6]]⟩ : Table).rows.length =
      (⟨["country", "v", "w"], [[Value.str "A", Value.null, Value.num 5],
        [Value.str "A", Value.num 2, Value.num 6]]⟩ : Table).rows.length ∧
    ∀ c', c' ∉ ["v"] → ∀ p,
      cellAt ⟨["country", "v", "w"], [[Value.str "A", Value.num 2, Value.num 5],
        [Value.str "A", Value.num 2, Value.num 6]]⟩ p c' =
      cellAt ⟨["country", "v", "w"], [[Value.str "A", Value.null, Value.num 5],
        [Value.str "A", Value.num 2, Value.num 6]]⟩ p c') := by
  have hok : interpolate_columns
      ⟨["country", "v", "w"], [[Value.str "A", Value.null, Value.num 5],
        [Value.str "A", Value.num 2, Value.num 6]]⟩ ["v"] (GroupCols.single "country") =
      Except.ok ⟨["country", "v", "w"], [[Value.str "A", Value.num 2, Value.num 5],
        [Value.str "A", Value.num 2, Value.num 6]]⟩ := by rfl
  exact ⟨hok, @interpolate_columns_frame
    ⟨["country", "v", "w"], [[Value.str "A", Value.null, Value.num 5],
      [Value.str "A", Value.num 2, Value.num 6]]⟩ ["v"] (GroupCols.single "country")
    ⟨["country", "v", "w"], [[Value.str "A", Value.num 2, Value.num 5],
      [Value.str "A", Value.num 2, Value.num 6]]⟩ hok⟩

/-- Witness for claim C1's amended theorem: the group "A" spanning days 0
to 3 is regularized to exactly the dates 0,1,2,3. -/
theorem fill_dates_complete_witness :
    fill_missing_dates_in_df_of_every_country
        ⟨["date", "country", "x"], [[Value.date 0, Value.str "A", Value.num 10],
          [Value.date 3, Value.str "A", Value.num 40]]⟩ "date" (GroupCols.single "country") =
      Except.ok ⟨["date", "country", "x"],
        [[Value.date 0, Value.str "A", Value.num 10],
         [Value.date 1, Value.str "A", Value.null],
         [Value.date 2, Value.str "A", Value.null],
         [Value.date 3, Value.str "A", Value.num 40]]⟩ ∧
    (Value.date 1 ∈ outGroupDates ⟨["date", "country", "x"],
        [[Value.date 0, Value.str "A", Value.num 10],
         [Value.date 1, Value.str "A", Value.null],
         [Value.date 2, Value.str "A", Value.null],
         [Value.date 3, Value.str "A", Value.num 40]]⟩ "date" ["country"] [Value.str "A"]) ∧
    outGroupDates ⟨["date", "country", "x"],
        [[Value.date 0, Value.str "A", Value.num 10],
         [Value.date 1, Value.str "A", Value.null],
         [Value.date 2, Value.str "A", Value.null],
         [Value.date 3, Value.str "A", Value.num 40]]⟩ "date" ["country"] [Value.str "A"] =
      (dateRange 0 3).map Value.date := by
  have hok : fill_missing_dates_in_df_of_every_country
      ⟨["date", "country", "x"], [[Value.date 0, Value.str "A", Value.num 10],
        [Value.date 3, Value.str "A", Value.num 40]]⟩ "date" (GroupCols.single "country") =
      Except.ok ⟨["date", "country", "x"],
        [[Value.date 0, Value.str "A", Value.num 10],
         [Value.date 1, Value.str "A", Value.null],
         [Value.date 2, Value.str "A", Value.null],
         [Value.date 3, Value.str "A", Value.num 40]]⟩ := by rfl
  have H := @fill_dates_complete
    ⟨["date", "country", "x"], [[Value.date 0, Value.str "A", Value.num 10],
      [Value.date 3, Value.str "A", Value.num 40]]⟩ "date" (GroupCols.single "country")
    ⟨["date", "country", "x"],
      [[Value.date 0, Value.str "A", Value.num 10],
       [Value.date 1, Value.str "A", Value.null],
       [Value.date 2, Value.str "A", Value.null],
       [Value.date 3, Value.str "A", Value.num 40]]⟩
    (Rect_of_all (by decide)) (by decide) (by decide) hok [Value.str "A"] (by decide)
    0 3 (by decide) (by decide)
  exact ⟨hok, (H.1 1).mpr (by decide), H.2.2 (by decide)⟩

/-- Witness for claim C2's amended theorem: the parseable row for day 0
reappears (reordered) in the regularized output. -/
theorem fill_keeps_parseable_rows_witness :
    fill_missing_dates_in_df_of_every_country
        ⟨["date", "country", "x"], [[Value.date 0, Value.str "A", Value.num 10],
          [Value.date 3, Value.str "A", Value.num 40]]⟩ "date" (GroupCols.single "country") =
      Except.ok ⟨["date", "country", "x"],
        [[Value.date 0, Value.str "A", Value.num 10],
         [Value.date 1, Value.str "A", Value.null],
         [Value.date 2, Value.str "A", Value.null],
         [Value.date 3, Value.str "A", Value.num 40]]⟩ ∧
    [Value.date 0, Value.str "A", Value.num 10] ∈ (⟨["date", "country", "x"],
        [[Value.date 0, Value.str "A", Value.num 10],
         [Value.date 1, Value.str "A", Value.null],
         [Value.date 2, Value.str "A", Value.null],
         [Value.date 3, Value.str "A", Value.num 40]]⟩ : Table).rows := by
  have hok : fill_missing_dates_in_df_of_every_country
      ⟨["date", "country", "x"], [[Value.date 0, Value.str "A", Value.num 10],
        [Value.date 3, Value.str "A", Value.num 40]]⟩ "date" (GroupCols.single "country") =
      Except.ok ⟨["date", "country", "x"],
        [[Value.date 0, Value.str "A", Value.num 10],
         [Value.date 1, Value.str "A", Value.null],
         [Value.date 2, Value.str "A", Value.null],
         [Value.date 3, Value.str "A", Value.num 40]]⟩ := by rfl
  refine ⟨hok, ?_⟩
  exact @fill_keeps_parseable_rows
    ⟨["date", "country", "x"], [[Value.date 0, Value.str "A", Value.num 10],
      [Value.date 3, Value.str "A", Value.num 40]]⟩ "date" (GroupCols.single "country")
    ⟨["date", "country", "x"],
      [[Value.date 0, Value.str "A", Value.num 10],
       [Value.date 1, Value.str "A", Value.null],
       [Value.date 2, Value.str "A", Value.null],
       [Value.date 3, Value.str "A", Value.num 40]]⟩
    (Rect_of_all (by decide)) (by decide) hok
    [Value.date 0, Value.str "A", Value.num 10] (by decide) 0 (by decide) (by decide)

/-- Witness for claim C8's theorem with a composite (two-column) key. -/
theorem fill_key_preservation_witness :
    fill_missing_dates_in_df_of_every_country
        ⟨["date", "c1", "c2"], [[Value.date 0, Value.str "A", Value.str "X"],
          [Value.date 2, Value.str "A", Value.str "X"]]⟩ "date"
        (GroupCols.multi ["c1", "c2"]) =
      Except.ok ⟨["date", "c1", "c2"],
        [[Value.date 0, Value.str "A", Value.str "X"],
         [Value.date 1, Value.str "A", Value.str "X"],
         [Value.date 2, Value.str "A", Value.str "X"]]⟩ ∧
    (∃ bs : List (List (List Value)),
      (⟨["date", "c1", "c2"],
        [[Value.date 0, Value.str "A", Value.str "X"],
         [Value.date 1, Value.str "A", Value.str "X"],
         [Value.date 2, Value.str "A", Value.str "X"]]⟩ : Table).rows = bs.flatten ∧
      bs.length = (fillKeys ⟨["date", "c1", "c2"],
        [[Value.date 0, Value.str "A", Value.str "X"],
         [Value.date 2, Value.str "A", Value.str "X"]]⟩ "date"
          (GroupCols.multi ["c1", "c2"]).keyCols).length ∧
      ∀ i, i < bs.length →
        ∀ r ∈ bs.getD i [],
          groupKeyR (⟨["date", "c1", "c2"],
            [[Value.date 0, Value.str "A", Value.str "X"],
             [Value.date 1, Value.str "A", Value.str "X"],
             [Value.date 2, Value.str "A", Value.str "X"]]⟩ : Table).cols
            (GroupCols.multi ["c1", "c2"]).keyCols r =
          (fillKeys ⟨["date", "c1", "c2"],
            [[Value.date 0, Value.str "A", Value.str "X"],
             [Value.date 2, Value.str "A", Value.str "X"]]⟩ "date"
              (GroupCols.multi ["c1", "c2"]).keyCols).getD i []) := by
  have hok : fill_missing_dates_in_df_of_every_country
      ⟨["date", "c1", "c2"], [[Value.date 0, Value.str "A", Value.str "X"],
        [Value.date 2, Value.str "A", Value.str "X"]]⟩ "date" (GroupCols.multi ["c1", "c2"]) =
      Except.ok ⟨["date", "c1", "c2"],
        [[Value.date 0, Value.str "A", Value.str "X"],
         [Value.date 1, Value.str "A", Value.str "X"],
         [Value.date 2, Value.str "A", Value.str "X"]]⟩ := by rfl
  refine ⟨hok, ?_⟩
  exact @fill_key_preservation
    ⟨["date", "c1", "c2"], [[Value.date 0, Value.str "A", Value.str "X"],
      [Value.date 2, Value.str "A", Value.str "X"]]⟩ "date" (GroupCols.multi ["c1", "c2"])
    ⟨["date", "c1", "c2"],
      [[Value.date 0, Value.str "A", Value.str "X"],
       [Value.date 1, Value.str "A", Value.str "X"],
       [Value.date 2, Value.str "A", Value.str "X"]]⟩
    (Rect_of_all (by decide)) (by decide) (by decide) hok
